import Mathlib

/-
Verification development for the cutorch device-memory allocator layer.

The repository source under src/lib/THC contains only the public header
THCAllocator.h (the two initialization entry points and the extern
THCIpcAllocator declaration).  The caching-allocator implementation itself
is not part of src/, so the Block/Segment model, the per-device caching
allocator, the stream-safety tracker and the IPC import adapter below are
modelled from the specification (each such definition says so in its doc
comment).  The header declarations themselves are embedded directly.
-/

namespace CutorchAlloc

/-- Stream identifiers of the device execution streams. -/
abbrev StreamId := Nat

/-- Identifiers of completion events recorded on streams. -/
abbrev EventId := Nat

/-- Modelled from the spec: ownership state of a Block.  A Block is
exclusively in one of three states: held live by a caller, in the free
index, or in the pending-free queue (THCCachingAllocator implementation
missing from src). -/
inductive BStatus where
  | inUse
  | free
  | pendingFree
  deriving DecidableEq, Repr, Inhabited

/-- Modelled from the spec: a Block is a sub-range of a Segment with
offset, size, free/in-use flag, the stream it was last used on, the set of
streams that touched it since last free (cross-stream touches), and its
pending completion events (THCCachingAllocator implementation missing
from src). -/
structure Block where
  offset : Nat
  size : Nat
  status : BStatus
  stream : StreamId
  touched : List StreamId
  events : List EventId
  deriving DecidableEq, Repr, Inhabited

/-- Modelled from the spec: a Segment is one contiguous device region with
an identity, a total size and an ordered sequence of Blocks covering it
without gaps (THCCachingAllocator implementation missing from src). -/
structure Segment where
  id : Nat
  size : Nat
  blocks : List Block
  deriving DecidableEq, Repr, Inhabited

/-- Modelled from the spec: the per-device allocator state, including the
instrumented Device Primitive Layer: segBudget is how many further
segments the device can provide (0 forces DeviceOutOfMemory), completed
is the set of events the device has signaled (externally controlled),
devAllocAttempts counts every allocate-segment request made to the device
and devAllocCalls the successful ones, devFreeCalls counts device frees
(THCCachingAllocator implementation missing from src). -/
structure AState where
  segments : List Segment
  nextSeg : Nat
  nextEvent : Nat
  completed : List EventId
  segBudget : Nat
  devAllocAttempts : Nat
  devAllocCalls : Nat
  devFreeCalls : Nat
  deriving DecidableEq, Repr, Inhabited

/-- The empty allocator state over a device able to provide b segments. -/
def initState (b : Nat) : AState :=
  { segments := [], nextSeg := 0, nextEvent := 0, completed := [],
    segBudget := b, devAllocAttempts := 0, devAllocCalls := 0, devFreeCalls := 0 }

/-- Block is in the free index. -/
def isFree (b : Block) : Bool :=
  match b.status with
  | .free => true
  | _ => false

/-- Modelled from the spec: merging two adjacent free Blocks yields one
free Block spanning both ranges. -/
def mergeTwo (a b : Block) : Block :=
  { offset := a.offset, size := a.size + b.size, status := .free,
    stream := a.stream, touched := [], events := [] }

/-- Modelled from the spec: normalize a Block sequence so that adjacent
free Blocks are coalesced before being indexed. -/
def coalesceAll : List Block → List Block
  | [] => []
  | b :: rest =>
    match coalesceAll rest with
    | [] => [b]
    | c :: cs =>
      if isFree b && isFree c then mergeTwo b c :: cs
      else b :: c :: cs

/-- Sum of the sizes of a Block sequence. -/
def blocksSum (l : List Block) : Nat :=
  (l.map Block.size).sum

/-- The Block sequence covers the address range starting at base with no
gaps: each offset is exactly the end of the previous Block. -/
def covers : Nat → List Block → Prop
  | _, [] => True
  | base, b :: rest => b.offset = base ∧ covers (b.offset + b.size) rest

instance coversDec : (base : Nat) → (l : List Block) → Decidable (covers base l)
  | _, [] => .isTrue trivial
  | base, b :: rest =>
    haveI := coversDec (b.offset + b.size) rest
    decidable_of_iff (b.offset = base ∧ covers (b.offset + b.size) rest) Iff.rfl

/-- No two adjacent Blocks of the sequence are both free. -/
def noAdjFree (l : List Block) : Prop :=
  List.Chain' (fun a b => ¬(isFree a = true ∧ isFree b = true)) l

/-- Executable check for noAdjFree. -/
def noAdjFreeB : List Block → Bool
  | [] => true
  | [_] => true
  | a :: b :: rest => (!(isFree a && isFree b)) && noAdjFreeB (b :: rest)

theorem noAdjFreeB_iff : ∀ l : List Block, noAdjFreeB l = true ↔ noAdjFree l := by
  intro l
  induction l with
  | nil => simp [noAdjFreeB, noAdjFree]
  | cons a rest ih =>
    cases rest with
    | nil =>
      simp only [noAdjFreeB]
      exact ⟨fun _ => List.chain'_singleton a, fun _ => trivial⟩
    | cons b rest2 =>
      rw [noAdjFree, List.chain'_cons]
      unfold noAdjFreeB
      rw [Bool.and_eq_true, ih]
      rw [show List.Chain' (fun a b => ¬(isFree a = true ∧ isFree b = true)) (b :: rest2) =
        noAdjFree (b :: rest2) from rfl]
      constructor
      · rintro ⟨h1, h2⟩
        refine ⟨fun hcon => ?_, h2⟩
        rw [hcon.1, hcon.2] at h1
        simp at h1
      · rintro ⟨h1, h2⟩
        refine ⟨?_, h2⟩
        cases hfa : isFree a <;> cases hfb : isFree b <;> simp
        exact h1 ⟨hfa, hfb⟩

instance : (l : List Block) → Decidable (noAdjFree l) := fun l =>
  decidable_of_iff (noAdjFreeB l = true) (noAdjFreeB_iff l)

/-- Modelled from the spec: mark the Block at the given offset free, with
no touched streams and no events. -/
def markFree (l : List Block) (o : Nat) : List Block :=
  l.map fun b =>
    if b.offset = o then
      { b with status := .free, touched := [], events := [] }
    else b

/-- Modelled from the spec: move the Block at the given offset to the
Pending-Free set, carrying the recorded completion events. -/
def markPending (l : List Block) (o : Nat) (evs : List EventId) : List Block :=
  l.map fun b =>
    if b.offset = o then
      { b with status := .pendingFree, touched := [], events := evs }
    else b

/-- Modelled from the spec: split the free Block found at offset o,
handing out an in-use Block of exactly r bytes tagged with stream s and
keeping the remainder free, preserving total coverage. -/
def splitAlloc (l : List Block) (o r : Nat) (s : StreamId) : List Block :=
  match l with
  | [] => []
  | b :: rest =>
    if b.offset = o then
      if r < b.size then
        { offset := o, size := r, status := .inUse, stream := s,
          touched := [], events := [] }
          :: { b with offset := o + r, size := b.size - r } :: rest
      else
        { offset := o, size := b.size, status := .inUse, stream := s,
          touched := [], events := [] } :: rest
    else b :: splitAlloc rest o r s

/-- Is every recorded event of the Block signaled according to the device
completed-event set. -/
def allComplete (completed : List EventId) (b : Block) : Bool :=
  b.events.all (fun e => completed.contains e)

/-- Modelled from the spec: harvest pass over one Block sequence — every
pending Block whose recorded events are all signaled transitions to Free
Index membership, after which adjacent free Blocks are coalesced. -/
def harvestBlocks (completed : List EventId) (l : List Block) : List Block :=
  coalesceAll (l.map fun b =>
    if b.status = .pendingFree && allComplete completed b then
      { b with status := .free, touched := [], events := [] }
    else b)

/-- Modelled from the spec: harvest all Blocks whose pending events are
already signaled into the Free Index. -/
def harvest (st : AState) : AState :=
  { st with segments :=
      st.segments.map fun g => { g with blocks := harvestBlocks st.completed g.blocks } }

/-- Find the Segment with the given identity. -/
def findSeg (st : AState) (gid : Nat) : Option Segment :=
  st.segments.find? (fun g => g.id = gid)

/-- A Block reference handed to callers: owning Segment identity and
offset within the Segment. -/
abbrev Ref := Nat × Nat

/-- Look up the Block a reference denotes. -/
def lookup (st : AState) (r : Ref) : Option Block :=
  (findSeg st r.1).bind fun g => g.blocks.find? (fun b => b.offset = r.2)

/-- Apply a Block-sequence transformation to the Segment with the given
identity. -/
def updSegBlocks (st : AState) (gid : Nat) (f : List Block → List Block) : AState :=
  { st with segments :=
      st.segments.map fun g => if g.id = gid then { g with blocks := f g.blocks } else g }

/-- Free-index candidates of one Segment: free Blocks of size at least r
satisfying the stream filter, as (segment id, offset, size) triples. -/
def freeCands (g : Segment) (r : Nat) (p : Block → Bool) : List (Nat × Nat × Nat) :=
  (g.blocks.filter fun b => isFree b && r ≤ b.size && p b).map
    fun b => (g.id, b.offset, b.size)

/-- All free-index candidates across the per-device Segment list. -/
def allCands (st : AState) (r : Nat) (p : Block → Bool) : List (Nat × Nat × Nat) :=
  st.segments.foldr (fun g acc => freeCands g r p ++ acc) []

/-- Best-fit choice: a candidate of minimal size. -/
def pickBest : List (Nat × Nat × Nat) → Option (Nat × Nat × Nat)
  | [] => none
  | c :: rest =>
    match pickBest rest with
    | none => some c
    | some d => if c.2.2 ≤ d.2.2 then some c else some d

/-- Spec size classes: sizes are rounded up to the next multiple of 64
bytes (at least 64), a bucketed scheme with bounded internal
fragmentation. -/
def roundSize (n : Nat) : Nat :=
  64 * ((max n 1 + 63) / 64)

/-- Spec growth policy: new Segments are sized at least minSegment to
reduce device call frequency. -/
def minSegment : Nat := 1024

/-- Carve an in-use Block of r bytes for stream s out of the chosen free
Block. -/
def allocInSeg (st : AState) (gid off r : Nat) (s : StreamId) : AState :=
  updSegBlocks st gid (fun bs => splitAlloc bs off r s)

/-- Modelled from the spec: a freshly obtained Segment, already split into
the requested in-use Block and the free remainder. -/
def newSegment (gid r : Nat) (s : StreamId) : Segment :=
  { id := gid, size := max r minSegment,
    blocks :=
      if r < max r minSegment then
        [ { offset := 0, size := r, status := .inUse, stream := s,
            touched := [], events := [] },
          { offset := r, size := max r minSegment - r, status := .free, stream := s,
            touched := [], events := [] } ]
      else
        [ { offset := 0, size := max r minSegment, status := .inUse, stream := s,
            touched := [], events := [] } ] }

/-- Modelled from the spec: one allocation pass — (1) best fit in the
exact-stream free index, (2) best fit in the any-stream free index,
(3) request a new Segment from the Device Primitive Layer, split it and
keep the remainder free.  Returns the Block reference on success; none
when the device reports out of memory. -/
def tryAlloc (st : AState) (r : Nat) (s : StreamId) : Option Ref × AState :=
  match pickBest (allCands st r (fun b => b.stream = s)) with
  | some c => (some (c.1, c.2.1), allocInSeg st c.1 c.2.1 r s)
  | none =>
    match pickBest (allCands st r (fun _ => true)) with
    | some c => (some (c.1, c.2.1), allocInSeg st c.1 c.2.1 r s)
    | none =>
      let st1 := { st with devAllocAttempts := st.devAllocAttempts + 1 }
      if st1.segBudget = 0 then (none, st1)
      else
        (some (st1.nextSeg, 0),
         { st1 with
             segments := st1.segments ++ [newSegment st1.nextSeg r s],
             nextSeg := st1.nextSeg + 1,
             segBudget := st1.segBudget - 1,
             devAllocCalls := st1.devAllocCalls + 1 })

/-- Failure taxonomy of the allocate path. -/
inductive AllocErr where
  | deviceOutOfMemory
  deriving DecidableEq, Repr

deriving instance DecidableEq for Except

/-- Modelled from the spec: allocate(device, size, stream) — round the
size to its size class and run the allocation pass; if the device reports
out of memory, first harvest all Blocks whose pending events are already
signaled, retry the allocation exactly once, and only if the retry also
fails propagate DeviceOutOfMemory. -/
def allocate (st : AState) (n : Nat) (s : StreamId) : Except AllocErr Ref × AState :=
  match tryAlloc st (roundSize n) s with
  | (some ref, st1) => (.ok ref, st1)
  | (none, st1) =>
    match tryAlloc (harvest st1) (roundSize n) s with
    | (some ref, st3) => (.ok ref, st3)
    | (none, st3) => (.error .deviceOutOfMemory, st3)

/-- Modelled from the spec: free(Block) — never a synchronous device
release.  When no stream other than the allocation stream touched the
Block since last free, reuse on the original stream needs no safety
check, so the Block goes directly, coalesced, into the free index.
Otherwise one completion event is recorded per distinct touching stream,
the Block enters the Pending-Free set, and already-complete pending
entries are opportunistically harvested. -/
def doFree (st : AState) (ref : Ref) : AState :=
  match lookup st ref with
  | none => st
  | some b =>
    if b.status = .inUse then
      if b.touched = [] then
        updSegBlocks st ref.1 (fun bs => coalesceAll (markFree bs ref.2))
      else
        let evs := (List.range b.touched.length).map (fun k => st.nextEvent + k)
        harvest
          (updSegBlocks { st with nextEvent := st.nextEvent + b.touched.length }
            ref.1 (fun bs => markPending bs ref.2 evs))
    else st

/-- Modelled from the spec: mark_used(Block, stream) — append the stream
to the touched-by set of an in-use Block if absent; the allocation stream
itself needs no tracking. -/
def doMarkUsed (st : AState) (ref : Ref) (s : StreamId) : AState :=
  match lookup st ref with
  | none => st
  | some b =>
    if b.status = .inUse ∧ s ≠ b.stream ∧ s ∉ b.touched then
      updSegBlocks st ref.1 (fun bs => bs.map fun x =>
        if x.offset = ref.2 then { x with touched := s :: x.touched } else x)
    else st

/-- Modelled from the spec: the device signals completion of a recorded
event (externally controlled, non-blocking poll on the allocator side; a
not-yet-recorded event never reads complete). -/
def doComplete (st : AState) (e : EventId) : AState :=
  if e < st.nextEvent then { st with completed := e :: st.completed } else st

/-- Is every Block of the Segment in the free index. -/
def segFullyFree (g : Segment) : Bool :=
  g.blocks.all isFree

/-- Modelled from the spec: release_unused_segments — return fully-free
Segments to the Device Primitive Layer. -/
def doRelease (st : AState) : AState :=
  let rel := (st.segments.filter segFullyFree).length
  { st with
      segments := st.segments.filter (fun g => !segFullyFree g),
      segBudget := st.segBudget + rel,
      devFreeCalls := st.devFreeCalls + rel }

/-- The commands a client (or the externally controlled device) can issue
against the allocator. -/
inductive Cmd where
  | alloc (n : Nat) (s : StreamId)
  | free (gid off : Nat)
  | markUsed (gid off : Nat) (s : StreamId)
  | complete (e : EventId)
  | release
  deriving DecidableEq, Repr

/-- Execute one command. -/
def exec (st : AState) : Cmd → AState
  | .alloc n s => (allocate st n s).2
  | .free gid off => doFree st (gid, off)
  | .markUsed gid off s => doMarkUsed st (gid, off) s
  | .complete e => doComplete st e
  | .release => doRelease st

/-- The states reachable by some sequence of commands from an initial
state. -/
inductive Reach : AState → Prop where
  | init (b : Nat) : Reach (initState b)
  | step {st : AState} (c : Cmd) : Reach st → Reach (exec st c)

/-- Well-formedness of one Segment: the Block sequence covers the Segment
without gaps, Block sizes sum to the Segment size, no two adjacent Blocks
are both free, every Block has positive size and a duplicate-free
touched-by set. -/
def SegWF (g : Segment) : Prop :=
  covers 0 g.blocks ∧ blocksSum g.blocks = g.size ∧ noAdjFree g.blocks ∧
    ∀ b ∈ g.blocks, 0 < b.size ∧ b.touched.Nodup

instance (g : Segment) : Decidable (SegWF g) :=
  decidable_of_iff
    (covers 0 g.blocks ∧ blocksSum g.blocks = g.size ∧ noAdjFree g.blocks ∧
      ∀ b ∈ g.blocks, 0 < b.size ∧ b.touched.Nodup) Iff.rfl

/-- The allocator state invariant: every Segment is well formed, Segment
identities are distinct and below the next fresh identity, and every
signaled event is one that was actually recorded. -/
def Inv (st : AState) : Prop :=
  (∀ g ∈ st.segments, SegWF g) ∧
  (st.segments.map Segment.id).Nodup ∧
  (∀ g ∈ st.segments, g.id < st.nextSeg) ∧
  (∀ e ∈ st.completed, e < st.nextEvent)

instance (st : AState) : Decidable (Inv st) :=
  decidable_of_iff
    ((∀ g ∈ st.segments, SegWF g) ∧
      (st.segments.map Segment.id).Nodup ∧
      (∀ g ∈ st.segments, g.id < st.nextSeg) ∧
      (∀ e ∈ st.completed, e < st.nextEvent)) Iff.rfl

/-- Modelled from the spec: repeatedly merge a Block into its preceding
free neighbors.  The first argument is the reversed prefix of the Block
sequence (nearest neighbor first). -/
def mergeLeft : List Block → Block → List Block × Block
  | [], b => ([], b)
  | p :: rest, b =>
    if isFree p && isFree b then mergeLeft rest (mergeTwo p b)
    else (p :: rest, b)

/-- Modelled from the spec: repeatedly merge a Block with its following
free neighbors. -/
def mergeRight : Block → List Block → Block × List Block
  | b, [] => (b, [])
  | b, n :: rest =>
    if isFree b && isFree n then mergeRight (mergeTwo b n) rest
    else (b, n :: rest)

/-- Modelled from the spec: coalesce(Block) — merge the Block at position
i of the Segment sequence with its free neighbors, returning the updated
sequence together with the position of the unified Block; a no-op for a
Block with no free neighbors (THCCachingAllocator implementation missing
from src). -/
def coalesceBlock (bs : List Block) (i : Nat) : List Block × Nat :=
  match bs[i]? with
  | none => (bs, i)
  | some b =>
    let lm := mergeLeft ((bs.take i).reverse) b
    let rm := mergeRight lm.2 (bs.drop (i + 1))
    (lm.1.reverse ++ rm.1 :: rm.2, lm.1.length)

/-- The Block at position i has no free neighbor in the sequence. -/
def noFreeNeighbor (bs : List Block) (i : Nat) : Prop :=
  (i = 0 ∨ ∀ p, bs[i - 1]? = some p → isFree p = false) ∧
  (∀ p, bs[i + 1]? = some p → isFree p = false)

instance decOptionNotFree : (o : Option Block) →
    Decidable (∀ p, o = some p → isFree p = false)
  | none => .isTrue (fun p hp => by cases hp)
  | some q =>
    decidable_of_iff (isFree q = false)
      ⟨fun h p hp => by injection hp with h2; rw [← h2]; exact h, fun h => h q rfl⟩

instance (bs : List Block) (i : Nat) : Decidable (noFreeNeighbor bs i) :=
  decidable_of_iff
    ((i = 0 ∨ ∀ p, bs[i - 1]? = some p → isFree p = false) ∧
      (∀ p, bs[i + 1]? = some p → isFree p = false)) Iff.rfl

/-- Failure taxonomy of the IPC import adapter. -/
inductive IpcErr where
  | invalidHandle
  | staleHandle
  deriving DecidableEq, Repr

/-- Modelled from the spec: an IPC handle is an opaque serializable
descriptor of segment identity, offset, size and device id
(THCIpcAllocator implementation missing from src; only its extern
declaration is in THCAllocator.h). -/
structure IPCHandle where
  segId : Nat
  offset : Nat
  size : Nat
  device : Nat
  deriving DecidableEq, Repr

/-- Modelled from the spec: the importing-process view of the shared IPC
bookkeeping — which exporter Segments are still resident and which
handles have already been fully released. -/
structure IpcEnv where
  residentSegs : List Nat
  releasedHandles : List Nat
  deriving DecidableEq, Repr

/-- Modelled from the spec: the local Block view constructed by a
successful import — opened, not allocated, so it carries a local
free-index-membership flag that import never sets. -/
structure ImportedBlock where
  segId : Nat
  offset : Nat
  size : Nat
  device : Nat
  inFreeIndex : Bool
  deriving DecidableEq, Repr

/-- Modelled from the spec: import_handle(IPCHandle) — fails with
InvalidHandle when the handle references a Segment no longer resident,
fails with StaleHandle when the handle was already fully released, and
otherwise constructs a local Block view with no local free-index
membership (THCIpcAllocator implementation missing from src). -/
def importHandle (env : IpcEnv) (h : IPCHandle) : Except IpcErr ImportedBlock :=
  if h.segId ∉ env.residentSegs then .error .invalidHandle
  else if h.segId ∈ env.releasedHandles then .error .staleHandle
  else .ok { segId := h.segId, offset := h.offset, size := h.size,
             device := h.device, inFreeIndex := false }

/-! Basic lemmas about freeness, sums and coverage. -/

theorem isFree_eq_true_iff (b : Block) : isFree b = true ↔ b.status = .free := by
  cases hb : b.status <;> simp [isFree, hb]

theorem isFree_eq_false_iff (b : Block) : isFree b = false ↔ b.status ≠ .free := by
  rw [← Bool.not_eq_true, not_iff_not, isFree_eq_true_iff]

@[simp] theorem blocksSum_nil : blocksSum [] = 0 := rfl

@[simp] theorem blocksSum_cons (b : Block) (l : List Block) :
    blocksSum (b :: l) = b.size + blocksSum l := by
  simp [blocksSum]

theorem covers_le_offset : ∀ {base : Nat} {l : List Block} {x : Block},
    covers base l → x ∈ l → base ≤ x.offset := by
  intro base l
  induction l generalizing base with
  | nil => intro x _ hx; cases hx
  | cons b rest ih =>
    intro x hc hx
    obtain ⟨hb, hrest⟩ := hc
    rcases List.mem_cons.mp hx with rfl | hx
    · omega
    · have := ih hrest hx
      omega

theorem covers_disjoint : ∀ {base : Nat} {l : List Block} {x y : Block},
    covers base l → (∀ z ∈ l, 0 < z.size) → x ∈ l → y ∈ l →
    x.offset < y.offset → x.offset + x.size ≤ y.offset := by
  intro base l
  induction l generalizing base with
  | nil => intro x y _ _ hx; cases hx
  | cons b rest ih =>
    intro x y hc hpos hx hy hlt
    obtain ⟨hb, hrest⟩ := hc
    rcases List.mem_cons.mp hx with hxb | hx'
    · subst hxb
      rcases List.mem_cons.mp hy with hyb | hy'
      · subst hyb; omega
      · have := covers_le_offset hrest hy'
        omega
    · rcases List.mem_cons.mp hy with hyb | hy'
      · subst hyb
        have hx1 := covers_le_offset hrest hx'
        have hbpos := hpos y (List.mem_cons_self ..)
        omega
      · exact ih hrest (fun z hz => hpos z (List.mem_cons_of_mem _ hz)) hx' hy' hlt

theorem covers_offset_inj : ∀ {base : Nat} {l : List Block} {x y : Block},
    covers base l → (∀ z ∈ l, 0 < z.size) → x ∈ l → y ∈ l →
    x.offset = y.offset → x = y := by
  intro base l
  induction l generalizing base with
  | nil => intro x y _ _ hx; cases hx
  | cons b rest ih =>
    intro x y hc hpos hx hy heq
    obtain ⟨hb, hrest⟩ := hc
    rcases List.mem_cons.mp hx with rfl | hx' <;> rcases List.mem_cons.mp hy with rfl | hy'
    · rfl
    · have h1 := covers_le_offset hrest hy'
      have h2 := hpos x (List.mem_cons_self ..)
      exact absurd heq (by omega)
    · have h1 := covers_le_offset hrest hx'
      have h2 := hpos y (List.mem_cons_self ..)
      exact absurd heq (by omega)
    · exact ih hrest (fun z hz => hpos z (List.mem_cons_of_mem _ hz)) hx' hy' heq

/-! Lemmas about coalesceAll: it keeps total size, coverage and positive
sizes, produces a sequence with no adjacent free Blocks, preserves every
non-free Block exactly, and keeps every freed range inside one free
Block. -/

theorem coalesceAll_sum : ∀ l : List Block, blocksSum (coalesceAll l) = blocksSum l := by
  intro l
  induction l with
  | nil => rfl
  | cons b rest ih =>
    simp only [coalesceAll]
    cases h : coalesceAll rest with
    | nil =>
      rw [h] at ih
      simp [← ih]
    | cons c cs =>
      rw [h] at ih
      cases hf : isFree b && isFree c
      · simp [hf, ← ih]
      · simp [hf, ← ih, mergeTwo]
        omega

theorem covers_coalesceAll : ∀ {base : Nat} {l : List Block},
    covers base l → covers base (coalesceAll l) := by
  intro base l
  induction l generalizing base with
  | nil => intro h; exact h
  | cons b rest ih =>
    intro hc
    obtain ⟨hb, hrest⟩ := hc
    simp only [coalesceAll]
    cases h : coalesceAll rest with
    | nil => exact ⟨hb, trivial⟩
    | cons c cs =>
      have ih' := ih hrest
      rw [h] at ih'
      obtain ⟨hc1, hc2⟩ := ih'
      cases hf : isFree b && isFree c
      · simp only [hf, Bool.false_eq_true, if_false]
        exact ⟨hb, hc1, hc2⟩
      · simp only [hf, if_true]
        refine ⟨by simpa [mergeTwo] using hb, ?_⟩
        simp only [mergeTwo]
        have heq : b.offset + (b.size + c.size) = c.offset + c.size := by omega
        rw [heq]
        exact hc2

theorem coalesceAll_head_status (b : Block) (rest : List Block) :
    ∃ c cs, coalesceAll (b :: rest) = c :: cs ∧ c.status = b.status := by
  simp only [coalesceAll]
  cases h : coalesceAll rest with
  | nil => exact ⟨b, [], rfl, rfl⟩
  | cons c cs =>
    cases hf : isFree b && isFree c
    · exact ⟨b, c :: cs, by simp [hf], rfl⟩
    · refine ⟨mergeTwo b c, cs, by simp [hf], ?_⟩
      simp only [Bool.and_eq_true] at hf
      simp only [mergeTwo]
      exact ((isFree_eq_true_iff b).mp hf.1).symm

theorem noAdjFree_coalesceAll : ∀ l : List Block, noAdjFree (coalesceAll l) := by
  intro l
  induction l with
  | nil => exact List.chain'_nil
  | cons b rest ih =>
    simp only [coalesceAll]
    cases h : coalesceAll rest with
    | nil => exact List.chain'_singleton b
    | cons c cs =>
      rw [h] at ih
      cases hf : isFree b && isFree c
      · simp only [hf, Bool.false_eq_true, if_false]
        rw [noAdjFree, List.chain'_cons]
        refine ⟨?_, ih⟩
        intro hcon
        rw [hcon.1, hcon.2] at hf
        simp at hf
      · simp only [hf, if_true]
        obtain ⟨hcf, hcs⟩ := List.chain'_cons'.mp ih
        rw [noAdjFree, List.chain'_cons']
        refine ⟨?_, hcs⟩
        intro y hy hcon
        simp only [Bool.and_eq_true] at hf
        exact hcf y hy ⟨hf.2, hcon.2⟩

theorem mem_coalesceAll_of_not_free : ∀ {l : List Block} {x : Block},
    x ∈ l → isFree x = false → x ∈ coalesceAll l := by
  intro l
  induction l with
  | nil => intro x hx; cases hx
  | cons b rest ih =>
    intro x hx hxf
    simp only [coalesceAll]
    cases h : coalesceAll rest with
    | nil =>
      rcases List.mem_cons.mp hx with hxb | hx'
      · subst hxb; exact List.mem_singleton.mpr rfl
      · have hm := ih hx' hxf
        rw [h] at hm
        cases hm
    | cons c cs =>
      rcases List.mem_cons.mp hx with hxb | hx'
      · subst hxb
        have hfx : (isFree x && isFree c) = false := by simp [hxf]
        simp only [hfx, Bool.false_eq_true, if_false]
        exact List.mem_cons_self ..
      · have hmem := ih hx' hxf
        rw [h] at hmem
        cases hf : isFree b && isFree c
        · simp only [hf, Bool.false_eq_true, if_false]
          exact List.mem_cons_of_mem _ hmem
        · simp only [hf, if_true]
          rcases List.mem_cons.mp hmem with hxc | hxcs
          · subst hxc
            simp only [Bool.and_eq_true] at hf
            rw [hf.2] at hxf
            cases hxf
          · exact List.mem_cons_of_mem _ hxcs

theorem coalesceAll_free_cover : ∀ {base : Nat} {l : List Block} {x : Block},
    covers base l → x ∈ l → isFree x = true →
    ∃ y ∈ coalesceAll l, isFree y = true ∧ y.offset ≤ x.offset ∧
      x.offset + x.size ≤ y.offset + y.size := by
  intro base l
  induction l generalizing base with
  | nil => intro x _ hx; cases hx
  | cons b rest ih =>
    intro x hc hx hxf
    obtain ⟨hb, hrest⟩ := hc
    have hcrest := covers_coalesceAll hrest
    simp only [coalesceAll]
    cases h : coalesceAll rest with
    | nil =>
      rcases List.mem_cons.mp hx with hxb | hx'
      · subst hxb
        exact ⟨x, List.mem_singleton.mpr rfl, hxf, le_refl _, le_refl _⟩
      · obtain ⟨y, hy, _⟩ := ih hrest hx' hxf
        rw [h] at hy
        cases hy
    | cons c cs =>
      rw [h] at hcrest
      obtain ⟨hcoff, _⟩ := hcrest
      rcases List.mem_cons.mp hx with hxb | hx'
      · subst hxb
        cases hf : isFree x && isFree c
        · simp only [hf, Bool.false_eq_true, if_false]
          exact ⟨x, List.mem_cons_self .., hxf, le_refl _, le_refl _⟩
        · simp only [hf, if_true]
          refine ⟨mergeTwo x c, List.mem_cons_self .., ?_, le_refl _, by simp [mergeTwo]⟩
          simp [mergeTwo, isFree]
      · obtain ⟨y, hy, hyf, hy1, hy2⟩ := ih hrest hx' hxf
        rw [h] at hy
        cases hf : isFree b && isFree c
        · simp only [hf, Bool.false_eq_true, if_false]
          exact ⟨y, List.mem_cons_of_mem _ hy, hyf, hy1, hy2⟩
        · simp only [hf, if_true]
          rcases List.mem_cons.mp hy with hyc | hycs
          · subst hyc
            refine ⟨mergeTwo b y, List.mem_cons_self .., by simp [mergeTwo, isFree], ?_, ?_⟩
            · simp only [mergeTwo]
              omega
            · simp only [mergeTwo]
              omega
          · exact ⟨y, List.mem_cons_of_mem _ hycs, hyf, hy1, hy2⟩

theorem coalesceAll_props : ∀ {l : List Block},
    (∀ b ∈ l, 0 < b.size ∧ b.touched.Nodup) →
    ∀ b ∈ coalesceAll l, 0 < b.size ∧ b.touched.Nodup := by
  intro l
  induction l with
  | nil => intro _ b hb; cases hb
  | cons b rest ih =>
    intro hl x hx
    have hb := hl b (List.mem_cons_self ..)
    have hrest := fun z hz => hl z (List.mem_cons_of_mem _ hz)
    simp only [coalesceAll] at hx
    cases h : coalesceAll rest with
    | nil =>
      rw [h] at hx
      rcases List.mem_singleton.mp hx with rfl
      exact hb
    | cons c cs =>
      rw [h] at hx
      cases hf : isFree b && isFree c <;>
        simp only [hf, Bool.false_eq_true, if_false, if_true] at hx
      · rcases List.mem_cons.mp hx with rfl | hx'
        · exact hb
        · exact ih hrest x (h ▸ hx')
      · rcases List.mem_cons.mp hx with rfl | hx'
        · refine ⟨?_, by simp [mergeTwo]⟩
          simp only [mergeTwo]
          omega
        · exact ih hrest x (h ▸ List.mem_cons_of_mem _ hx')

/-! Lemmas about shape-preserving Block maps (markFree, markPending and
the touch map of doMarkUsed only change status, touched and events). -/

theorem covers_map_same_shape {f : Block → Block}
    (hoff : ∀ b, (f b).offset = b.offset) (hsz : ∀ b, (f b).size = b.size) :
    ∀ {base : Nat} {l : List Block}, covers base l → covers base (l.map f) := by
  intro base l
  induction l generalizing base with
  | nil => intro h; exact h
  | cons b rest ih =>
    intro hc
    obtain ⟨hb, hrest⟩ := hc
    refine ⟨by rw [hoff]; exact hb, ?_⟩
    rw [hoff, hsz]
    exact ih hrest

theorem blocksSum_map_same_shape {f : Block → Block}
    (hsz : ∀ b, (f b).size = b.size) (l : List Block) :
    blocksSum (l.map f) = blocksSum l := by
  induction l with
  | nil => rfl
  | cons b rest ih => simp [hsz, ih]

theorem noAdjFree_map_of_free_imp {f : Block → Block}
    (hfr : ∀ b, isFree (f b) = true → isFree b = true) {l : List Block} :
    noAdjFree l → noAdjFree (l.map f) := by
  intro h
  rw [noAdjFree, List.chain'_map]
  exact List.Chain'.imp (fun a b hab hcon => hab ⟨hfr _ hcon.1, hfr _ hcon.2⟩) h

/-! Lemmas about splitAlloc. -/

theorem splitAlloc_covers : ∀ {base : Nat} {l : List Block} {b0 : Block} {o r : Nat}
    {s : StreamId},
    covers base l → (∀ z ∈ l, 0 < z.size) → b0 ∈ l → b0.offset = o → r ≤ b0.size →
    covers base (splitAlloc l o r s) := by
  intro base l
  induction l generalizing base with
  | nil => intro b0 o r s _ _ hb; cases hb
  | cons b rest ih =>
    intro b0 o r s hc hpos hb0 hoff hr
    obtain ⟨hb, hrest⟩ := hc
    by_cases hbo : b.offset = o
    · have hb0b : b0 = b := by
        rcases List.mem_cons.mp hb0 with h | h
        · exact h
        · have h1 := covers_le_offset hrest h
          have h2 := hpos b (List.mem_cons_self ..)
          exact absurd (hoff.trans hbo.symm) (by omega)
      subst hb0b
      simp only [splitAlloc, hbo, if_true]
      by_cases hrl : r < b0.size
      · simp only [hrl, if_true]
        refine ⟨?_, rfl, ?_⟩
        · show o = base
          omega
        · show covers (o + r + (b0.size - r)) rest
          have heq : o + r + (b0.size - r) = b0.offset + b0.size := by omega
          rw [heq]
          exact hrest
      · simp only [hrl, if_false]
        refine ⟨?_, ?_⟩
        · show o = base
          omega
        · show covers (o + b0.size) rest
          have heq : o + b0.size = b0.offset + b0.size := by omega
          rw [heq]
          exact hrest
    · have hb0r : b0 ∈ rest := by
        rcases List.mem_cons.mp hb0 with h | h
        · exact absurd (h ▸ hoff) hbo
        · exact h
      simp only [splitAlloc, hbo, if_false]
      exact ⟨hb, ih hrest (fun z hz => hpos z (List.mem_cons_of_mem _ hz)) hb0r hoff hr⟩

theorem splitAlloc_sum : ∀ {l : List Block} {b0 : Block} {o r : Nat} {s : StreamId},
    b0 ∈ l → b0.offset = o → r ≤ b0.size →
    (∀ z ∈ l, z.offset = o → z.size = b0.size) →
    blocksSum (splitAlloc l o r s) = blocksSum l := by
  intro l
  induction l with
  | nil => intro b0 o r s hb; cases hb
  | cons b rest ih =>
    intro b0 o r s hb0 hoff hr huniq
    by_cases hbo : b.offset = o
    · have hsz : b.size = b0.size := huniq b (List.mem_cons_self ..) hbo
      simp only [splitAlloc, hbo, if_true]
      by_cases hrl : r < b.size
      · simp only [hrl, if_true, blocksSum_cons]
        omega
      · simp only [hrl, if_false, blocksSum_cons]
    · simp only [splitAlloc, hbo, if_false, blocksSum_cons]
      have hb0r : b0 ∈ rest := by
        rcases List.mem_cons.mp hb0 with h | h
        · exact absurd (h ▸ hoff) hbo
        · exact h
      rw [ih hb0r hoff hr (fun z hz hzo => huniq z (List.mem_cons_of_mem _ hz) hzo)]

theorem splitAlloc_props : ∀ {l : List Block} {o r : Nat} {s : StreamId},
    0 < r → (∀ z ∈ l, 0 < z.size ∧ z.touched.Nodup) →
    ∀ x ∈ splitAlloc l o r s, 0 < x.size ∧ x.touched.Nodup := by
  intro l
  induction l with
  | nil => intro o r s _ _ x hx; cases hx
  | cons b rest ih =>
    intro o r s hrpos hl x hx
    have hb := hl b (List.mem_cons_self ..)
    have hrest := fun z hz => hl z (List.mem_cons_of_mem _ hz)
    by_cases hbo : b.offset = o
    · simp only [splitAlloc, hbo, if_true] at hx
      by_cases hrl : r < b.size
      · simp only [hrl, if_true] at hx
        rcases List.mem_cons.mp hx with rfl | hx'
        · exact ⟨hrpos, List.nodup_nil⟩
        · rcases List.mem_cons.mp hx' with rfl | hx''
          · exact ⟨by simp; omega, by simp [hb.2]⟩
          · exact hl x (List.mem_cons_of_mem _ hx'')
      · simp only [hrl, if_false] at hx
        rcases List.mem_cons.mp hx with rfl | hx'
        · exact ⟨hb.1, List.nodup_nil⟩
        · exact hl x (List.mem_cons_of_mem _ hx')
    · simp only [splitAlloc, hbo, if_false] at hx
      rcases List.mem_cons.mp hx with rfl | hx'
      · exact hb
      · exact ih hrpos hrest x hx'

theorem splitAlloc_head_cases (l : List Block) (o r : Nat) (s : StreamId) :
    ∀ x, (splitAlloc l o r s).head? = some x →
      l.head? = some x ∨ x.status = .inUse := by
  intro x hx
  cases l with
  | nil => cases hx
  | cons b rest =>
    by_cases hbo : b.offset = o
    · simp only [splitAlloc, hbo, if_true] at hx
      by_cases hrl : r < b.size
      · simp only [hrl, if_true, List.head?_cons, Option.some.injEq] at hx
        exact Or.inr (by rw [← hx])
      · simp only [hrl, if_false, List.head?_cons, Option.some.injEq] at hx
        exact Or.inr (by rw [← hx])
    · simp only [splitAlloc, hbo, if_false, List.head?_cons, Option.some.injEq] at hx
      exact Or.inl (by simp [hx])

theorem splitAlloc_noAdjFree : ∀ {l : List Block} {b0 : Block} {o r : Nat} {s : StreamId},
    noAdjFree l → b0 ∈ l → b0.offset = o → isFree b0 = true →
    (∀ z ∈ l, z.offset = o → z = b0) →
    noAdjFree (splitAlloc l o r s) := by
  intro l
  induction l with
  | nil => intro b0 o r s _ hb; cases hb
  | cons b rest ih =>
    intro b0 o r s hch hb0 hoff hfree huniq
    by_cases hbo : b.offset = o
    · have hbb0 : b = b0 := huniq b (List.mem_cons_self ..) hbo
      subst hbb0
      simp only [splitAlloc, hbo, if_true]
      by_cases hrl : r < b.size
      · simp only [hrl, if_true]
        rw [noAdjFree, List.chain'_cons, List.chain'_cons']
        refine ⟨by simp [isFree], ?_, ?_⟩
        · intro y hy hcon
          obtain ⟨hbf, hrch⟩ := List.chain'_cons'.mp hch
          exact hbf y hy ⟨hfree, hcon.2⟩
        · exact (List.chain'_cons'.mp hch).2
      · simp only [hrl, if_false]
        rw [noAdjFree, List.chain'_cons']
        refine ⟨by simp [isFree], (List.chain'_cons'.mp hch).2⟩
    · have hb0r : b0 ∈ rest := by
        rcases List.mem_cons.mp hb0 with h | h
        · exact absurd (h ▸ hoff) hbo
        · exact h
      simp only [splitAlloc, hbo, if_false]
      obtain ⟨hbf, hrch⟩ := List.chain'_cons'.mp hch
      rw [noAdjFree, List.chain'_cons']
      constructor
      · intro y hy hcon
        rcases splitAlloc_head_cases rest o r s y (by simpa using hy) with h | h
        · exact hbf y (by simpa using h) hcon
        · rw [(isFree_eq_true_iff y).mp hcon.2] at h
          cases h
      · exact ih hrch hb0r hoff hfree
          (fun z hz hzo => huniq z (List.mem_cons_of_mem _ hz) hzo)

theorem splitAlloc_find? : ∀ {l : List Block} {b0 : Block} {o r : Nat} {s : StreamId},
    b0 ∈ l → b0.offset = o → r ≤ b0.size →
    (∀ z ∈ l, z.offset = o → z.size = b0.size) →
    (splitAlloc l o r s).find? (fun x => x.offset = o) =
      some { offset := o, size := r, status := .inUse, stream := s,
             touched := [], events := [] } := by
  intro l
  induction l with
  | nil => intro b0 o r s hb; cases hb
  | cons b rest ih =>
    intro b0 o r s hb0 hoff hr huniq
    by_cases hbo : b.offset = o
    · have hsz : b.size = b0.size := huniq b (List.mem_cons_self ..) hbo
      simp only [splitAlloc, hbo, if_true]
      by_cases hrl : r < b.size
      · simp only [hrl, if_true]
        rw [List.find?_cons_of_pos _ (by simp)]
      · have hreq : r = b.size := by omega
        simp only [hrl, if_false]
        rw [List.find?_cons_of_pos _ (by simp), hreq]
    · have hb0r : b0 ∈ rest := by
        rcases List.mem_cons.mp hb0 with h | h
        · exact absurd (h ▸ hoff) hbo
        · exact h
      simp only [splitAlloc, hbo, if_false]
      rw [List.find?_cons_of_neg _ (by simp [hbo])]
      exact ih hb0r hoff hr (fun z hz hzo => huniq z (List.mem_cons_of_mem _ hz) hzo)

theorem splitAlloc_mem_other : ∀ {l : List Block} {x : Block} {o r : Nat} {s : StreamId},
    x ∈ l → x.offset ≠ o → x ∈ splitAlloc l o r s := by
  intro l
  induction l with
  | nil => intro x o r s hx; cases hx
  | cons b rest ih =>
    intro x o r s hx hxo
    by_cases hbo : b.offset = o
    · have hxr : x ∈ rest := by
        rcases List.mem_cons.mp hx with h | h
        · exact absurd (h ▸ hbo) hxo
        · exact h
      simp only [splitAlloc, hbo, if_true]
      by_cases hrl : r < b.size
      · simp only [hrl, if_true]
        exact List.mem_cons_of_mem _ (List.mem_cons_of_mem _ hxr)
      · simp only [hrl, if_false]
        exact List.mem_cons_of_mem _ hxr
    · simp only [splitAlloc, hbo, if_false]
      rcases List.mem_cons.mp hx with rfl | hx'
      · exact List.mem_cons_self ..
      · exact List.mem_cons_of_mem _ (ih hx' hxo)

/-! Lemmas about the best-fit search. -/

theorem pickBest_mem : ∀ {l : List (Nat × Nat × Nat)} {c},
    pickBest l = some c → c ∈ l := by
  intro l
  induction l with
  | nil => intro c h; cases h
  | cons a rest ih =>
    intro c h
    simp only [pickBest] at h
    cases hr : pickBest rest with
    | none =>
      rw [hr] at h
      simp only [Option.some.injEq] at h
      exact h ▸ List.mem_cons_self ..
    | some d =>
      rw [hr] at h
      by_cases hle : a.2.2 ≤ d.2.2
      · simp only [hle, if_true, Option.some.injEq] at h
        exact h ▸ List.mem_cons_self ..
      · simp only [hle, if_false, Option.some.injEq] at h
        exact List.mem_cons_of_mem _ (h ▸ ih hr)

theorem pickBest_isSome : ∀ {l : List (Nat × Nat × Nat)},
    l ≠ [] → ∃ c, pickBest l = some c := by
  intro l h
  cases l with
  | nil => exact absurd rfl h
  | cons a rest =>
    simp only [pickBest]
    cases hr : pickBest rest with
    | none => exact ⟨a, rfl⟩
    | some d =>
      by_cases hle : a.2.2 ≤ d.2.2
      · exact ⟨a, by simp [hle]⟩
      · exact ⟨d, by simp [hle]⟩

theorem mem_freeCands {g : Segment} {r : Nat} {p : Block → Bool} {c : Nat × Nat × Nat} :
    c ∈ freeCands g r p ↔
      ∃ b ∈ g.blocks, isFree b = true ∧ r ≤ b.size ∧ p b = true ∧
        c = (g.id, b.offset, b.size) := by
  simp only [freeCands, List.mem_map, List.mem_filter, Bool.and_eq_true, decide_eq_true_eq]
  constructor
  · rintro ⟨b, ⟨hb, ⟨hf, hr⟩, hp⟩, hc⟩
    exact ⟨b, hb, hf, hr, hp, hc.symm⟩
  · rintro ⟨b, hb, hf, hr, hp, hc⟩
    exact ⟨b, ⟨hb, ⟨hf, hr⟩, hp⟩, hc.symm⟩

theorem mem_allCands {st : AState} {r : Nat} {p : Block → Bool} {c : Nat × Nat × Nat} :
    c ∈ allCands st r p ↔ ∃ g ∈ st.segments, c ∈ freeCands g r p := by
  unfold allCands
  induction st.segments with
  | nil => simp
  | cons g rest ih =>
    simp only [List.foldr_cons, List.mem_append, ih, List.mem_cons]
    constructor
    · rintro (h | ⟨g', hg', hc⟩)
      · exact ⟨g, Or.inl rfl, h⟩
      · exact ⟨g', Or.inr hg', hc⟩
    · rintro ⟨g', hg' | hg', hc⟩
      · exact Or.inl (hg' ▸ hc)
      · exact Or.inr ⟨g', hg', hc⟩

/-- Soundness of the search: a pick denotes an existing free Block of
sufficient size in an existing Segment. -/
theorem pickBest_allCands_sound {st : AState} {r : Nat} {p : Block → Bool}
    {c : Nat × Nat × Nat} (h : pickBest (allCands st r p) = some c) :
    ∃ g ∈ st.segments, ∃ b ∈ g.blocks, isFree b = true ∧ r ≤ b.size ∧ p b = true ∧
      c = (g.id, b.offset, b.size) := by
  obtain ⟨g, hg, hc⟩ := mem_allCands.mp (pickBest_mem h)
  obtain ⟨b, hb, h1, h2, h3, h4⟩ := mem_freeCands.mp hc
  exact ⟨g, hg, b, hb, h1, h2, h3, h4⟩

/-- Completeness of the search: when a qualifying free Block exists, the
search returns some pick. -/
theorem pickBest_allCands_complete {st : AState} {r : Nat} {p : Block → Bool}
    {g : Segment} {b : Block} (hg : g ∈ st.segments) (hb : b ∈ g.blocks)
    (h1 : isFree b = true) (h2 : r ≤ b.size) (h3 : p b = true) :
    ∃ c, pickBest (allCands st r p) = some c := by
  apply pickBest_isSome
  intro hnil
  have : (g.id, b.offset, b.size) ∈ allCands st r p :=
    mem_allCands.mpr ⟨g, hg, mem_freeCands.mpr ⟨b, hb, h1, h2, h3, rfl⟩⟩
  rw [hnil] at this
  cases this

/-! State-level structural lemmas. -/

theorem seg_id_inj {st : AState} (hInv : Inv st) {g1 g2 : Segment}
    (h1 : g1 ∈ st.segments) (h2 : g2 ∈ st.segments) (heq : g1.id = g2.id) : g1 = g2 :=
  List.inj_on_of_nodup_map hInv.2.1 h1 h2 heq

theorem findSeg_sound {st : AState} {gid : Nat} {g : Segment}
    (h : findSeg st gid = some g) : g ∈ st.segments ∧ g.id = gid := by
  refine ⟨List.mem_of_find?_eq_some h, ?_⟩
  have := List.find?_some h
  simpa using this

theorem findSeg_eq_of_mem {st : AState} (hInv : Inv st) {g : Segment}
    (hg : g ∈ st.segments) : findSeg st g.id = some g := by
  have hsome : (st.segments.find? (fun g' => g'.id = g.id)).isSome = true :=
    List.find?_isSome.mpr ⟨g, hg, by simp⟩
  cases hfind : st.segments.find? (fun g' => g'.id = g.id) with
  | none => rw [hfind] at hsome; cases hsome
  | some g' =>
    obtain ⟨hg', hid⟩ := findSeg_sound hfind
    rw [findSeg, hfind]
    rw [seg_id_inj hInv hg' hg hid]

/-- A generic invariant-preservation principle for operations that map
the Segment list while preserving identity and size and well-formedness. -/
theorem Inv_mapSegs {st : AState} {F : Segment → Segment} (hInv : Inv st)
    (hid : ∀ g, (F g).id = g.id)
    (hwf : ∀ g ∈ st.segments, SegWF g → SegWF (F g))
    {ne : Nat} (hne : st.nextEvent ≤ ne) :
    Inv { st with segments := st.segments.map F, nextEvent := ne } := by
  obtain ⟨h1, h2, h3, h4⟩ := hInv
  refine ⟨?_, ?_, ?_, ?_⟩
  · intro g' hg'
    obtain ⟨g, hg, rfl⟩ := List.mem_map.mp hg'
    exact hwf g hg (h1 g hg)
  · have : (st.segments.map F).map Segment.id = st.segments.map Segment.id := by
      rw [List.map_map]
      exact List.map_congr_left (fun g _ => hid g)
    simpa [this] using h2
  · intro g' hg'
    obtain ⟨g, hg, rfl⟩ := List.mem_map.mp hg'
    simpa [hid] using h3 g hg
  · intro e he
    have h5 : e < st.nextEvent := h4 e he
    exact Nat.lt_of_lt_of_le h5 hne

theorem Inv_updSegBlocks {st : AState} {gid : Nat} {f : List Block → List Block}
    (hInv : Inv st)
    (hwf : ∀ g ∈ st.segments, g.id = gid → SegWF g →
      SegWF { g with blocks := f g.blocks }) :
    Inv (updSegBlocks st gid f) := by
  have h := Inv_mapSegs
    (F := fun g => if g.id = gid then { g with blocks := f g.blocks } else g) hInv
    (fun g => by by_cases hg : g.id = gid <;> simp [hg])
    (fun g hg hwfg => by
      show SegWF (if g.id = gid then { g with blocks := f g.blocks } else g)
      by_cases hg' : g.id = gid
      · rw [if_pos hg']
        exact hwf g hg hg' hwfg
      · rw [if_neg hg']
        exact hwfg)
    (le_refl st.nextEvent)
  exact h

theorem lookup_sound {st : AState} {ref : Ref} {b : Block}
    (h : lookup st ref = some b) :
    ∃ g ∈ st.segments, g.id = ref.1 ∧ findSeg st ref.1 = some g ∧
      b ∈ g.blocks ∧ b.offset = ref.2 := by
  unfold lookup at h
  cases hf : findSeg st ref.1 with
  | none => rw [hf] at h; cases h
  | some g =>
    rw [hf] at h
    have h2 : g.blocks.find? (fun x => x.offset = ref.2) = some b := h
    obtain ⟨hg, hid⟩ := findSeg_sound hf
    refine ⟨g, hg, hid, rfl, List.mem_of_find?_eq_some h2, ?_⟩
    simpa using List.find?_some h2

/-! Well-formedness preservation of the Block-sequence transformations. -/

theorem SegWF_coalesceAll {g : Segment} {l : List Block}
    (hcov : covers 0 l) (hsum : blocksSum l = g.size)
    (hprops : ∀ b ∈ l, 0 < b.size ∧ b.touched.Nodup) :
    SegWF { g with blocks := coalesceAll l } := by
  refine ⟨covers_coalesceAll hcov, ?_, noAdjFree_coalesceAll l, coalesceAll_props hprops⟩
  show blocksSum (coalesceAll l) = g.size
  rw [coalesceAll_sum]
  exact hsum

theorem SegWF_markFree_coalesce {g : Segment} {o : Nat} (h : SegWF g) :
    SegWF { g with blocks := coalesceAll (markFree g.blocks o) } := by
  obtain ⟨h1, h2, _, h4⟩ := h
  apply SegWF_coalesceAll
  · exact covers_map_same_shape
      (fun b => by by_cases hb : b.offset = o <;> simp [hb])
      (fun b => by by_cases hb : b.offset = o <;> simp [hb]) h1
  · rw [markFree,
      blocksSum_map_same_shape (fun b => by by_cases hb : b.offset = o <;> simp [hb])]
    exact h2
  · intro x hx
    rw [markFree] at hx
    obtain ⟨y, hy, rfl⟩ := List.mem_map.mp hx
    by_cases hb : y.offset = o
    · simp only [hb, if_true]
      exact ⟨(h4 y hy).1, List.nodup_nil⟩
    · simp only [hb, if_false]
      exact h4 y hy

theorem SegWF_markPending {g : Segment} {o : Nat} {evs : List EventId} (h : SegWF g) :
    SegWF { g with blocks := markPending g.blocks o evs } := by
  obtain ⟨h1, h2, h3, h4⟩ := h
  refine ⟨?_, ?_, ?_, ?_⟩
  · exact covers_map_same_shape
      (fun b => by by_cases hb : b.offset = o <;> simp [hb])
      (fun b => by by_cases hb : b.offset = o <;> simp [hb]) h1
  · show blocksSum (markPending g.blocks o evs) = g.size
    rw [markPending,
      blocksSum_map_same_shape (fun b => by by_cases hb : b.offset = o <;> simp [hb])]
    exact h2
  · exact noAdjFree_map_of_free_imp
      (fun b hb => by
        by_cases hbo : b.offset = o
        · simp [hbo, isFree] at hb
        · simpa [hbo] using hb) h3
  · intro x hx
    obtain ⟨y, hy, rfl⟩ := List.mem_map.mp hx
    by_cases hb : y.offset = o
    · simp only [hb, if_true]
      exact ⟨(h4 y hy).1, List.nodup_nil⟩
    · simp only [hb, if_false]
      exact h4 y hy

theorem SegWF_harvestBlocks (completed : List EventId) {g : Segment} (h : SegWF g) :
    SegWF { g with blocks := harvestBlocks completed g.blocks } := by
  obtain ⟨h1, h2, _, h4⟩ := h
  unfold harvestBlocks
  apply SegWF_coalesceAll
  · exact covers_map_same_shape
      (fun b => by
        by_cases hb : (decide (b.status = .pendingFree) && allComplete completed b) = true <;>
          simp [hb])
      (fun b => by
        by_cases hb : (decide (b.status = .pendingFree) && allComplete completed b) = true <;>
          simp [hb]) h1
  · rw [blocksSum_map_same_shape (fun b => by
      by_cases hb : (decide (b.status = .pendingFree) && allComplete completed b) = true <;>
        simp [hb])]
    exact h2
  · intro x hx
    obtain ⟨y, hy, rfl⟩ := List.mem_map.mp hx
    by_cases hb : (decide (y.status = .pendingFree) && allComplete completed y) = true
    · simp only [hb, if_true]
      exact ⟨(h4 y hy).1, List.nodup_nil⟩
    · simp only [hb, if_false]
      exact h4 y hy

theorem Inv_harvest {st : AState} (hInv : Inv st) : Inv (harvest st) := by
  have h := Inv_mapSegs
    (F := fun g => { g with blocks := harvestBlocks st.completed g.blocks }) hInv
    (fun _ => rfl)
    (fun g _ hwf => SegWF_harvestBlocks st.completed hwf)
    (le_refl st.nextEvent)
  exact h

theorem Inv_nextEvent_le {st : AState} {ne : Nat} (hInv : Inv st)
    (hne : st.nextEvent ≤ ne) : Inv { st with nextEvent := ne } := by
  have h := Inv_mapSegs (F := id) hInv (fun _ => rfl) (fun _ _ hwf => hwf) hne
  simpa using h

/-! Invariant preservation of the public operations. -/

theorem roundSize_pos (n : Nat) : 0 < roundSize n := by
  unfold roundSize
  have h : 1 ≤ max n 1 := le_max_right n 1
  omega

theorem Inv_doFree {st : AState} {ref : Ref} (hInv : Inv st) : Inv (doFree st ref) := by
  unfold doFree
  cases hl : lookup st ref with
  | none => exact hInv
  | some b =>
    by_cases hs : b.status = .inUse
    · by_cases ht : b.touched = []
      · simp only [hs, ht, if_true]
        exact Inv_updSegBlocks hInv
          (fun g _ _ hwfg => SegWF_markFree_coalesce hwfg)
      · simp only [hs, ht, if_true, if_false]
        apply Inv_harvest
        exact Inv_updSegBlocks
          (Inv_nextEvent_le hInv (Nat.le_add_right _ _))
          (fun g _ _ hwfg => SegWF_markPending hwfg)
    · simp only [hs, if_false]
      exact hInv

theorem Inv_doMarkUsed {st : AState} {ref : Ref} {s : StreamId} (hInv : Inv st) :
    Inv (doMarkUsed st ref s) := by
  unfold doMarkUsed
  cases hl : lookup st ref with
  | none => exact hInv
  | some b =>
    dsimp only
    by_cases hc : b.status = .inUse ∧ s ≠ b.stream ∧ s ∉ b.touched
    · rw [if_pos hc]
      obtain ⟨g0, hg0, hid0, hfind0, hb0, hoff0⟩ := lookup_sound hl
      apply Inv_updSegBlocks hInv
      intro g hg hid hwfg
      have hgg : g = g0 := seg_id_inj hInv hg hg0 (by rw [hid, hid0])
      subst hgg
      obtain ⟨h1, h2, h3, h4⟩ := hwfg
      have hpos : ∀ z ∈ g.blocks, 0 < z.size := fun z hz => (h4 z hz).1
      refine ⟨?_, ?_, ?_, ?_⟩
      · exact covers_map_same_shape
          (fun x => by by_cases hx : x.offset = ref.2 <;> simp [hx])
          (fun x => by by_cases hx : x.offset = ref.2 <;> simp [hx]) h1
      · show blocksSum (g.blocks.map _) = g.size
        rw [blocksSum_map_same_shape
          (fun x => by by_cases hx : x.offset = ref.2 <;> simp [hx])]
        exact h2
      · exact noAdjFree_map_of_free_imp
          (fun x hx => by
            by_cases hxo : x.offset = ref.2
            · simpa [hxo, isFree] using hx
            · simpa [hxo] using hx) h3
      · intro x hx
        obtain ⟨y, hy, rfl⟩ := List.mem_map.mp hx
        by_cases hyo : y.offset = ref.2
        · have hyb : y = b := covers_offset_inj h1 hpos hy hb0 (by rw [hyo, hoff0])
          subst hyb
          simp only [hyo, if_true]
          refine ⟨(h4 y hy).1, ?_⟩
          show (s :: y.touched).Nodup
          rw [List.nodup_cons]
          exact ⟨hc.2.2, (h4 y hy).2⟩
        · simp only [hyo, if_false]
          exact h4 y hy
    · rw [if_neg hc]
      exact hInv

theorem Inv_doComplete {st : AState} {e : EventId} (hInv : Inv st) :
    Inv (doComplete st e) := by
  unfold doComplete
  by_cases he : e < st.nextEvent
  · simp only [he, if_true]
    obtain ⟨h1, h2, h3, h4⟩ := hInv
    refine ⟨h1, h2, h3, ?_⟩
    intro e' he'
    rcases List.mem_cons.mp he' with rfl | he''
    · exact he
    · exact h4 e' he''
  · simp only [he, if_false]
    exact hInv

theorem Inv_doRelease {st : AState} (hInv : Inv st) : Inv (doRelease st) := by
  obtain ⟨h1, h2, h3, h4⟩ := hInv
  unfold doRelease
  refine ⟨?_, ?_, ?_, h4⟩
  · intro g hg
    exact h1 g (List.mem_filter.mp hg).1
  · have hsub : List.Sublist
        ((st.segments.filter (fun g => !segFullyFree g)).map Segment.id)
        (st.segments.map Segment.id) :=
      List.Sublist.map _ (List.filter_sublist _)
    exact h2.sublist hsub
  · intro g hg
    exact h3 g (List.mem_filter.mp hg).1

theorem SegWF_newSegment {gid r : Nat} {s : StreamId} (hr : 0 < r) :
    SegWF (newSegment gid r s) := by
  unfold newSegment
  by_cases hlt : r < max r minSegment
  · simp only [hlt, if_true]
    refine ⟨⟨rfl, by simp, trivial⟩, ?_, ?_, ?_⟩
    · show r + (max r minSegment - r + 0) = max r minSegment
      omega
    · rw [noAdjFree, List.chain'_cons]
      exact ⟨fun hcon => by simpa [isFree] using hcon.1, List.chain'_singleton _⟩
    · intro b hb
      rcases List.mem_cons.mp hb with rfl | hb'
      · exact ⟨hr, List.nodup_nil⟩
      · rcases List.mem_singleton.mp hb' with rfl
        refine ⟨by show 0 < max r minSegment - r; omega, List.nodup_nil⟩
  · simp only [hlt, if_false]
    refine ⟨⟨rfl, trivial⟩, ?_, List.chain'_singleton _, ?_⟩
    · show max r minSegment + 0 = max r minSegment
      omega
    · intro b hb
      rcases List.mem_singleton.mp hb with rfl
      exact ⟨by show 0 < max r minSegment; omega, List.nodup_nil⟩

theorem Inv_append_newSeg {st : AState} {r : Nat} {s : StreamId} (hInv : Inv st)
    (hr : 0 < r) :
    Inv { st with segments := st.segments ++ [newSegment st.nextSeg r s],
                  nextSeg := st.nextSeg + 1 } := by
  obtain ⟨h1, h2, h3, h4⟩ := hInv
  refine ⟨?_, ?_, ?_, h4⟩
  · intro g hg
    rcases List.mem_append.mp hg with hg' | hg'
    · exact h1 g hg'
    · rcases List.mem_singleton.mp hg' with rfl
      exact SegWF_newSegment hr
  · show ((st.segments ++ [newSegment st.nextSeg r s]).map Segment.id).Nodup
    rw [List.map_append]
    rw [List.nodup_append]
    refine ⟨h2, by simp [newSegment], ?_⟩
    intro a ha hb
    simp only [List.map_cons, List.map_nil, List.mem_singleton, newSegment] at hb
    obtain ⟨g, hg, rfl⟩ := List.mem_map.mp ha
    have := h3 g hg
    omega
  · intro g hg
    rcases List.mem_append.mp hg with hg' | hg'
    · have := h3 g hg'
      show g.id < st.nextSeg + 1
      omega
    · rcases List.mem_singleton.mp hg' with rfl
      show (newSegment st.nextSeg r s).id < st.nextSeg + 1
      simp [newSegment]

theorem Inv_allocInSeg_of_pick {st : AState} {r : Nat} {s : StreamId} {p : Block → Bool}
    {c : Nat × Nat × Nat} (hInv : Inv st)
    (hr : 0 < r) (h : pickBest (allCands st r p) = some c) :
    Inv (allocInSeg st c.1 c.2.1 r s) := by
  obtain ⟨g, hg, b, hb, hfree, hsz, _, hc⟩ := pickBest_allCands_sound h
  subst hc
  apply Inv_updSegBlocks hInv
  intro g' hg' hid hwfg
  have hgg : g' = g := seg_id_inj hInv hg' hg hid
  subst hgg
  obtain ⟨h1, h2, h3, h4⟩ := hwfg
  have hpos : ∀ z ∈ g'.blocks, 0 < z.size := fun z hz => (h4 z hz).1
  have huniq : ∀ z ∈ g'.blocks, z.offset = b.offset → z = b :=
    fun z hz hzo => covers_offset_inj h1 hpos hz hb hzo
  refine ⟨?_, ?_, ?_, ?_⟩
  · exact splitAlloc_covers h1 hpos hb rfl hsz
  · show blocksSum (splitAlloc g'.blocks b.offset r s) = g'.size
    rw [splitAlloc_sum hb rfl hsz (fun z hz hzo => by rw [huniq z hz hzo])]
    exact h2
  · exact splitAlloc_noAdjFree h3 hb rfl hfree huniq
  · exact splitAlloc_props hr h4

theorem tryAlloc_inv {st : AState} {r : Nat} {s : StreamId} (hInv : Inv st)
    (hr : 0 < r) : Inv (tryAlloc st r s).2 := by
  unfold tryAlloc
  cases h1 : pickBest (allCands st r (fun b => b.stream = s)) with
  | some c => exact Inv_allocInSeg_of_pick hInv hr h1
  | none =>
    cases h2 : pickBest (allCands st r (fun _ => true)) with
    | some c => exact Inv_allocInSeg_of_pick hInv hr h2
    | none =>
      by_cases hb : st.segBudget = 0
      · simp only [hb, if_true]
        exact hInv
      · simp only [hb, if_false]
        exact Inv_append_newSeg hInv hr

theorem Inv_allocate {st : AState} {n : Nat} {s : StreamId} (hInv : Inv st) :
    Inv (allocate st n s).2 := by
  unfold allocate
  have hr := roundSize_pos n
  cases h1 : tryAlloc st (roundSize n) s with
  | mk o1 st1 =>
    have hInv1 : Inv st1 := by
      have := tryAlloc_inv (s := s) hInv hr
      rw [h1] at this
      exact this
    cases o1 with
    | some ref => exact hInv1
    | none =>
      dsimp only
      have hInv2 : Inv (harvest st1) := Inv_harvest hInv1
      cases h2 : tryAlloc (harvest st1) (roundSize n) s with
      | mk o2 st2 =>
        have hInv3 : Inv st2 := by
          have := tryAlloc_inv (s := s) hInv2 hr
          rw [h2] at this
          exact this
        cases o2 with
        | some ref => exact hInv3
        | none => exact hInv3

theorem Inv_exec {st : AState} (c : Cmd) (hInv : Inv st) : Inv (exec st c) := by
  cases c with
  | alloc n s => exact Inv_allocate hInv
  | free gid off => exact Inv_doFree hInv
  | markUsed gid off s => exact Inv_doMarkUsed hInv
  | complete e => exact Inv_doComplete hInv
  | release => exact Inv_doRelease hInv

theorem Inv_initState (b : Nat) : Inv (initState b) := by
  refine ⟨?_, ?_, ?_, ?_⟩ <;> simp [initState]

/-- Every reachable allocator state satisfies the structural invariant. -/
theorem Reach_Inv {st : AState} (h : Reach st) : Inv st := by
  induction h with
  | init b => exact Inv_initState b
  | step c _ ih => exact Inv_exec c ih

/-! Behavioral lemmas about the allocation pass. -/

theorem findSeg_updSegBlocks (st : AState) (gid gid' : Nat) (f : List Block → List Block) :
    findSeg (updSegBlocks st gid f) gid' =
      (findSeg st gid').map
        (fun g => if g.id = gid then { g with blocks := f g.blocks } else g) := by
  show List.find? _ (st.segments.map _) = _
  rw [List.find?_map]
  have hp : ((fun g : Segment => decide (g.id = gid')) ∘ fun g =>
      if g.id = gid then { g with blocks := f g.blocks } else g) =
      (fun g : Segment => decide (g.id = gid')) := by
    funext g
    by_cases h : g.id = gid <;> simp [h]
  rw [hp]
  rfl

theorem updSegBlocks_fields (st : AState) (gid : Nat) (f : List Block → List Block) :
    (updSegBlocks st gid f).nextSeg = st.nextSeg ∧
    (updSegBlocks st gid f).nextEvent = st.nextEvent ∧
    (updSegBlocks st gid f).completed = st.completed ∧
    (updSegBlocks st gid f).segBudget = st.segBudget ∧
    (updSegBlocks st gid f).devAllocAttempts = st.devAllocAttempts ∧
    (updSegBlocks st gid f).devAllocCalls = st.devAllocCalls ∧
    (updSegBlocks st gid f).devFreeCalls = st.devFreeCalls ∧
    (updSegBlocks st gid f).segments.length = st.segments.length :=
  ⟨rfl, rfl, rfl, rfl, rfl, rfl, rfl, List.length_map _ _⟩

/-- A failing allocation pass changes nothing but the device-attempt
counter, and fails exactly because the device is out of segments. -/
theorem tryAlloc_none_state {st : AState} {r : Nat} {s : StreamId} {st' : AState}
    (h : tryAlloc st r s = (none, st')) :
    st' = { st with devAllocAttempts := st.devAllocAttempts + 1 } ∧ st.segBudget = 0 := by
  unfold tryAlloc at h
  cases h1 : pickBest (allCands st r (fun b => b.stream = s)) with
  | some c =>
    rw [h1] at h
    cases h
  | none =>
    rw [h1] at h
    cases h2 : pickBest (allCands st r (fun _ => true)) with
    | some c =>
      rw [h2] at h
      cases h
    | none =>
      rw [h2] at h
      dsimp only at h
      by_cases hb : st.segBudget = 0
      · rw [if_pos hb] at h
        obtain ⟨-, h⟩ := Prod.mk.injEq .. ▸ h
        exact ⟨h.symm, hb⟩
      · rw [if_neg hb] at h
        cases h

/-- A successful allocation pass returns either a free Block that already
existed in some Segment, or offset 0 of a freshly requested Segment. -/
theorem tryAlloc_ok_cases {st : AState} {r : Nat} {s : StreamId} {ref : Ref} {st' : AState}
    (h : tryAlloc st r s = (some ref, st')) :
    (∃ g ∈ st.segments, ∃ b ∈ g.blocks,
        isFree b = true ∧ r ≤ b.size ∧ ref = (g.id, b.offset)) ∨
    ref = (st.nextSeg, 0) := by
  unfold tryAlloc at h
  cases h1 : pickBest (allCands st r (fun b => b.stream = s)) with
  | some c =>
    rw [h1] at h
    obtain ⟨g, hg, b, hb, hf, hsz, _, hc⟩ := pickBest_allCands_sound h1
    simp only [Prod.mk.injEq, Option.some.injEq] at h
    subst hc
    exact Or.inl ⟨g, hg, b, hb, hf, hsz, h.1.symm⟩
  | none =>
    rw [h1] at h
    cases h2 : pickBest (allCands st r (fun _ => true)) with
    | some c =>
      rw [h2] at h
      obtain ⟨g, hg, b, hb, hf, hsz, _, hc⟩ := pickBest_allCands_sound h2
      simp only [Prod.mk.injEq, Option.some.injEq] at h
      subst hc
      exact Or.inl ⟨g, hg, b, hb, hf, hsz, h.1.symm⟩
    | none =>
      rw [h2] at h
      dsimp only at h
      by_cases hb : st.segBudget = 0
      · rw [if_pos hb] at h
        cases h
      · rw [if_neg hb] at h
        simp only [Prod.mk.injEq, Option.some.injEq] at h
        exact Or.inr h.1.symm

theorem allocate_of_tryAlloc_some {st : AState} {n : Nat} {s : StreamId} {ref : Ref}
    {st' : AState} (h : tryAlloc st (roundSize n) s = (some ref, st')) :
    allocate st n s = (.ok ref, st') := by
  unfold allocate
  rw [h]

theorem allocate_of_retry_some {st : AState} {n : Nat} {s : StreamId} {st1 : AState}
    {ref : Ref} {st2 : AState} (h1 : tryAlloc st (roundSize n) s = (none, st1))
    (h2 : tryAlloc (harvest st1) (roundSize n) s = (some ref, st2)) :
    allocate st n s = (.ok ref, st2) := by
  unfold allocate
  rw [h1]
  dsimp only
  rw [h2]

theorem allocate_of_retry_none {st : AState} {n : Nat} {s : StreamId} {st1 st2 : AState}
    (h1 : tryAlloc st (roundSize n) s = (none, st1))
    (h2 : tryAlloc (harvest st1) (roundSize n) s = (none, st2)) :
    allocate st n s = (.error .deviceOutOfMemory, st2) := by
  unfold allocate
  rw [h1]
  dsimp only
  rw [h2]

theorem allocate_ok_cases {st : AState} {n : Nat} {s : StreamId} {ref : Ref} {st' : AState}
    (h : allocate st n s = (.ok ref, st')) :
    tryAlloc st (roundSize n) s = (some ref, st') ∨
    ∃ st1, tryAlloc st (roundSize n) s = (none, st1) ∧
      tryAlloc (harvest st1) (roundSize n) s = (some ref, st') := by
  unfold allocate at h
  cases h1 : tryAlloc st (roundSize n) s with
  | mk o1 st1 =>
    rw [h1] at h
    cases o1 with
    | some ref1 =>
      dsimp only at h
      simp only [Prod.mk.injEq, Except.ok.injEq] at h
      obtain ⟨rfl, rfl⟩ := h
      exact Or.inl rfl
    | none =>
      dsimp only at h
      cases h2 : tryAlloc (harvest st1) (roundSize n) s with
      | mk o2 st2 =>
        rw [h2] at h
        cases o2 with
        | some ref2 =>
          dsimp only at h
          simp only [Prod.mk.injEq, Except.ok.injEq] at h
          obtain ⟨rfl, rfl⟩ := h
          exact Or.inr ⟨st1, rfl, h2⟩
        | none => cases h

theorem allocate_error_cases {st : AState} {n : Nat} {s : StreamId} {err : AllocErr}
    {st' : AState} (h : allocate st n s = (.error err, st')) :
    ∃ st1, tryAlloc st (roundSize n) s = (none, st1) ∧
      tryAlloc (harvest st1) (roundSize n) s = (none, st') ∧
      err = .deviceOutOfMemory := by
  unfold allocate at h
  cases h1 : tryAlloc st (roundSize n) s with
  | mk o1 st1 =>
    rw [h1] at h
    cases o1 with
    | some ref1 => cases h
    | none =>
      dsimp only at h
      cases h2 : tryAlloc (harvest st1) (roundSize n) s with
      | mk o2 st2 =>
        rw [h2] at h
        cases o2 with
        | some ref2 => cases h
        | none =>
          dsimp only at h
          simp only [Prod.mk.injEq, Except.error.injEq] at h
          cases err
          refine ⟨st1, rfl, ?_, rfl⟩
          rw [← h.2]
          exact h2

/-- When the free index holds a qualifying candidate, the allocation pass
succeeds without any device request. -/
theorem tryAlloc_hit_of_candidate (st : AState) {r : Nat} {s : StreamId} {g : Segment}
    {b : Block} (hg : g ∈ st.segments) (hb : b ∈ g.blocks) (hfree : isFree b = true)
    (hsz : r ≤ b.size) :
    ∃ ref, tryAlloc st r s = (some ref, allocInSeg st ref.1 ref.2 r s) := by
  unfold tryAlloc
  cases h1 : pickBest (allCands st r (fun x => x.stream = s)) with
  | some c => exact ⟨(c.1, c.2.1), rfl⟩
  | none =>
    obtain ⟨c, hc⟩ := pickBest_allCands_complete (p := fun _ => true) hg hb hfree hsz rfl
    rw [hc]
    exact ⟨(c.1, c.2.1), rfl⟩

/-- After a successful allocation pass, the returned reference denotes an
in-use Block of exactly the rounded size, tagged with the requesting
stream, with empty touched-by set and no events. -/
theorem tryAlloc_ok_lookup {st : AState} {r : Nat} {s : StreamId} {ref : Ref} {st' : AState}
    (hInv : Inv st) (h : tryAlloc st r s = (some ref, st')) :
    lookup st' ref = some { offset := ref.2, size := r, status := .inUse, stream := s,
                            touched := [], events := [] } := by
  have hpick : ∀ (p : Block → Bool) c, pickBest (allCands st r p) = some c →
      (some (c.1, c.2.1), allocInSeg st c.1 c.2.1 r s) = (some ref, st') →
      lookup st' ref = some { offset := ref.2, size := r, status := .inUse, stream := s,
                              touched := [], events := [] } := by
    intro p c hc heq
    obtain ⟨g, hg, b, hb, hfree, hsz, -, hcc⟩ := pickBest_allCands_sound hc
    subst hcc
    simp only [Prod.mk.injEq, Option.some.injEq] at heq
    obtain ⟨href, hst⟩ := heq
    obtain ⟨hcov, hsum, hnoadj, hprops⟩ := hInv.1 g hg
    have hpos : ∀ z ∈ g.blocks, 0 < z.size := fun z hz => (hprops z hz).1
    have huniq : ∀ z ∈ g.blocks, z.offset = b.offset → z.size = b.size :=
      fun z hz hzo => by rw [covers_offset_inj hcov hpos hz hb hzo]
    rw [← hst, ← href]
    show (findSeg (allocInSeg st g.id b.offset r s) g.id).bind _ = _
    rw [allocInSeg, findSeg_updSegBlocks, findSeg_eq_of_mem hInv hg]
    simp only [Option.map_some', if_pos]
    show (splitAlloc g.blocks b.offset r s).find? (fun x => x.offset = b.offset) = _
    exact splitAlloc_find? hb rfl hsz huniq
  unfold tryAlloc at h
  cases h1 : pickBest (allCands st r (fun x => x.stream = s)) with
  | some c =>
    rw [h1] at h
    exact hpick _ c h1 h
  | none =>
    rw [h1] at h
    cases h2 : pickBest (allCands st r (fun _ => true)) with
    | some c =>
      rw [h2] at h
      exact hpick _ c h2 h
    | none =>
      rw [h2] at h
      dsimp only at h
      by_cases hbud : st.segBudget = 0
      · rw [if_pos hbud] at h
        cases h
      · rw [if_neg hbud] at h
        simp only [Prod.mk.injEq, Option.some.injEq] at h
        obtain ⟨href, hst⟩ := h
        rw [← hst, ← href]
        show (findSeg _ st.nextSeg).bind _ = _
        have hnone : (st.segments.find? (fun g => g.id = st.nextSeg)) = none := by
          rw [List.find?_eq_none]
          intro g hg
          have := hInv.2.2.1 g hg
          simp
          omega
        show ((st.segments ++ [newSegment st.nextSeg r s]).find?
          (fun g => g.id = st.nextSeg)).bind _ = _
        rw [List.find?_append, hnone]
        rw [List.find?_cons_of_pos _ (by simp [newSegment])]
        show Option.bind (some (newSegment st.nextSeg r s)) _ = _
        show (newSegment st.nextSeg r s).blocks.find? (fun x => x.offset = 0) = _
        unfold newSegment
        by_cases hrl : r < max r minSegment
        · rw [if_pos hrl]
          rw [List.find?_cons_of_pos _ (by simp)]
        · rw [if_neg hrl]
          have hmax : max r minSegment = r := by
            have := le_max_left r minSegment
            omega
          rw [hmax]
          rw [List.find?_cons_of_pos _ (by simp)]

/-! Preservation of a pending Block with an unresolved event: such a
Block is never promoted, coalesced, split or released, and is never the
Block returned by an allocation. -/

theorem not_free_of_pending {b : Block} (hp : b.status = .pendingFree) :
    isFree b = false := by
  simp [isFree, hp]

theorem allComplete_false {completed : List EventId} {b : Block} {e : EventId}
    (he : e ∈ b.events) (hen : e ∉ completed) :
    allComplete completed b = false := by
  cases hall : allComplete completed b
  · rfl
  · unfold allComplete at hall
    have := List.all_eq_true.mp hall e he
    rw [List.elem_iff] at this
    exact absurd this hen

theorem harvestBlocks_mem_pending {completed : List EventId} {l : List Block} {b : Block}
    (hb : b ∈ l) (hp : b.status = .pendingFree) {e : EventId} (he : e ∈ b.events)
    (hen : e ∉ completed) :
    b ∈ harvestBlocks completed l := by
  unfold harvestBlocks
  apply mem_coalesceAll_of_not_free _ (not_free_of_pending hp)
  apply List.mem_map.mpr
  refine ⟨b, hb, ?_⟩
  have hac : allComplete completed b = false := allComplete_false he hen
  simp [hac]

theorem harvest_preserves_pending (st : AState) {g : Segment} {b : Block}
    (hg : g ∈ st.segments) (hb : b ∈ g.blocks) (hp : b.status = .pendingFree)
    {e : EventId} (he : e ∈ b.events) (hen : e ∉ st.completed) :
    ∃ g' ∈ (harvest st).segments, g'.id = g.id ∧ b ∈ g'.blocks := by
  refine ⟨{ g with blocks := harvestBlocks st.completed g.blocks }, ?_, rfl, ?_⟩
  · exact List.mem_map_of_mem _ hg
  · exact harvestBlocks_mem_pending hb hp he hen

theorem updSegBlocks_preserves (st : AState) {gid : Nat} {f : List Block → List Block}
    {g : Segment} {b : Block} (hg : g ∈ st.segments) (hb : b ∈ g.blocks)
    (hf : g.id = gid → b ∈ f g.blocks) :
    ∃ g' ∈ (updSegBlocks st gid f).segments, g'.id = g.id ∧ b ∈ g'.blocks := by
  by_cases hid : g.id = gid
  · refine ⟨{ g with blocks := f g.blocks }, ?_, rfl, hf hid⟩
    have hm := List.mem_map_of_mem
      (fun g => if g.id = gid then { g with blocks := f g.blocks } else g) hg
    dsimp only at hm
    rw [if_pos hid] at hm
    exact hm
  · refine ⟨g, ?_, rfl, hb⟩
    have hm := List.mem_map_of_mem
      (fun g => if g.id = gid then { g with blocks := f g.blocks } else g) hg
    dsimp only at hm
    rw [if_neg hid] at hm
    exact hm

theorem mem_map_ite_of_ne {l : List Block} {o : Nat} {F : Block → Block} {b : Block}
    (hb : b ∈ l) (hne : b.offset ≠ o) :
    b ∈ l.map (fun x => if x.offset = o then F x else x) := by
  have hm := List.mem_map_of_mem (fun x => if x.offset = o then F x else x) hb
  dsimp only at hm
  rw [if_neg hne] at hm
  exact hm

/-- The allocation pass never hands out a reference denoting a pending
Block. -/
theorem tryAlloc_ne_pending {st : AState} (hInv : Inv st) {g : Segment} {b : Block}
    (hg : g ∈ st.segments) (hb : b ∈ g.blocks) (hp : b.status = .pendingFree)
    {r : Nat} {s : StreamId} {ref : Ref} {st' : AState}
    (h : tryAlloc st r s = (some ref, st')) :
    ref ≠ (g.id, b.offset) := by
  intro hrefeq
  rcases tryAlloc_ok_cases h with ⟨g2, hg2, b2, hb2, hfree, hsz, hrefeq2⟩ | hfresh
  · rw [hrefeq] at hrefeq2
    simp only [Prod.mk.injEq] at hrefeq2
    have hgg : g = g2 := seg_id_inj hInv hg hg2 hrefeq2.1
    subst hgg
    obtain ⟨hcov, -, -, hprops⟩ := hInv.1 g hg
    have hpos : ∀ z ∈ g.blocks, 0 < z.size := fun z hz => (hprops z hz).1
    have : b = b2 := covers_offset_inj hcov hpos hb hb2 hrefeq2.2
    subst this
    rw [(isFree_eq_true_iff b).mp hfree] at hp
    cases hp
  · rw [hrefeq] at hfresh
    simp only [Prod.mk.injEq] at hfresh
    have := hInv.2.2.1 g hg
    omega

/-- allocate never returns a pending Block while one of its recorded
completion events is unresolved. -/
theorem allocate_ne_pending {st : AState} (hInv : Inv st) {g : Segment} {b : Block}
    (hg : g ∈ st.segments) (hb : b ∈ g.blocks) (hp : b.status = .pendingFree)
    {e : EventId} (he : e ∈ b.events) (hen : e ∉ st.completed)
    {n : Nat} {s : StreamId} {ref : Ref} {st' : AState}
    (h : allocate st n s = (.ok ref, st')) :
    ref ≠ (g.id, b.offset) := by
  rcases allocate_ok_cases h with h1 | ⟨st1, h1, h2⟩
  · exact tryAlloc_ne_pending hInv hg hb hp h1
  · obtain ⟨hst1, -⟩ := tryAlloc_none_state h1
    subst hst1
    have hInv1 : Inv { st with devAllocAttempts := st.devAllocAttempts + 1 } := hInv
    have hInvH := Inv_harvest hInv1
    obtain ⟨g', hg', hid', hb'⟩ :=
      harvest_preserves_pending
        { st with devAllocAttempts := st.devAllocAttempts + 1 }
        hg hb hp he hen
    have hne := tryAlloc_ne_pending hInvH hg' hb' hp h2
    rw [hid'] at hne
    exact hne

/-- The allocation pass keeps a pending Block intact (same Segment
identity, same Block) whatever its outcome. -/
theorem tryAlloc_preserves_pending {st : AState} (hInv : Inv st) {g : Segment} {b : Block}
    (hg : g ∈ st.segments) (hb : b ∈ g.blocks) (hp : b.status = .pendingFree)
    (r : Nat) (s : StreamId) :
    ∃ g' ∈ (tryAlloc st r s).2.segments, g'.id = g.id ∧ b ∈ g'.blocks := by
  have hsplit : ∀ (p : Block → Bool) c, pickBest (allCands st r p) = some c →
      ∃ g' ∈ (allocInSeg st c.1 c.2.1 r s).segments, g'.id = g.id ∧ b ∈ g'.blocks := by
    intro p c hc
    obtain ⟨g2, hg2, b2, hb2, hfree, hsz, -, hcc⟩ := pickBest_allCands_sound hc
    subst hcc
    apply updSegBlocks_preserves st hg hb
    intro hid
    have hgg : g = g2 := seg_id_inj hInv hg hg2 hid
    subst hgg
    obtain ⟨hcov, -, -, hprops⟩ := hInv.1 g hg
    have hpos : ∀ z ∈ g.blocks, 0 < z.size := fun z hz => (hprops z hz).1
    have hne : b.offset ≠ b2.offset := by
      intro heq
      have : b = b2 := covers_offset_inj hcov hpos hb hb2 heq
      subst this
      rw [(isFree_eq_true_iff b).mp hfree] at hp
      cases hp
    exact splitAlloc_mem_other hb hne
  unfold tryAlloc
  cases h1 : pickBest (allCands st r (fun x => x.stream = s)) with
  | some c => exact hsplit _ c h1
  | none =>
    cases h2 : pickBest (allCands st r (fun _ => true)) with
    | some c => exact hsplit _ c h2
    | none =>
      dsimp only
      by_cases hbud : st.segBudget = 0
      · rw [if_pos hbud]
        exact ⟨g, hg, rfl, hb⟩
      · rw [if_neg hbud]
        exact ⟨g, List.mem_append_left _ hg, rfl, hb⟩

/-- allocate keeps a pending Block with an unresolved event intact. -/
theorem allocate_preserves_pending {st : AState} (hInv : Inv st) {g : Segment} {b : Block}
    (hg : g ∈ st.segments) (hb : b ∈ g.blocks) (hp : b.status = .pendingFree)
    {e : EventId} (he : e ∈ b.events) (hen : e ∉ st.completed) (n : Nat) (s : StreamId) :
    ∃ g' ∈ (allocate st n s).2.segments, g'.id = g.id ∧ b ∈ g'.blocks := by
  unfold allocate
  cases h1 : tryAlloc st (roundSize n) s with
  | mk o1 st1 =>
    have hpre1 := tryAlloc_preserves_pending hInv hg hb hp (roundSize n) s
    rw [h1] at hpre1
    cases o1 with
    | some ref => exact hpre1
    | none =>
      dsimp only
      obtain ⟨hst1, -⟩ := tryAlloc_none_state h1
      subst hst1
      have hInv1 : Inv { st with devAllocAttempts := st.devAllocAttempts + 1 } := hInv
      have hInvH := Inv_harvest hInv1
      obtain ⟨g', hg', hid', hb'⟩ :=
        harvest_preserves_pending
          { st with devAllocAttempts := st.devAllocAttempts + 1 }
          hg hb hp he hen
      cases h2 : tryAlloc (harvest { st with devAllocAttempts := st.devAllocAttempts + 1 })
          (roundSize n) s with
      | mk o2 st2 =>
        have hpre2 := tryAlloc_preserves_pending hInvH hg' hb' hp (roundSize n) s
        rw [h2] at hpre2
        obtain ⟨g'', hg'', hid'', hb''⟩ := hpre2
        have : g''.id = g.id := by rw [hid'', hid']
        cases o2 with
        | some ref => exact ⟨g'', hg'', this, hb''⟩
        | none => exact ⟨g'', hg'', this, hb''⟩

theorem doFree_preserves_pending {st : AState} (hInv : Inv st) {g : Segment} {b : Block}
    (hg : g ∈ st.segments) (hb : b ∈ g.blocks) (hp : b.status = .pendingFree)
    {e : EventId} (he : e ∈ b.events) (hen : e ∉ st.completed) (ref : Ref) :
    ∃ g' ∈ (doFree st ref).segments, g'.id = g.id ∧ b ∈ g'.blocks := by
  unfold doFree
  cases hl : lookup st ref with
  | none => exact ⟨g, hg, rfl, hb⟩
  | some bf =>
    dsimp only
    obtain ⟨g0, hg0, hid0, -, hbf0, hoff0⟩ := lookup_sound hl
    by_cases hs : bf.status = .inUse
    · have hbne : b ≠ bf := by
        intro heq
        rw [← heq, hp] at hs
        cases hs
      have hoffne : g.id = ref.1 → b.offset ≠ ref.2 := by
        intro hid heq
        have hgg : g = g0 := seg_id_inj hInv hg hg0 (by rw [hid, hid0])
        subst hgg
        obtain ⟨hcov, -, -, hprops⟩ := hInv.1 g hg
        have hpos : ∀ z ∈ g.blocks, 0 < z.size := fun z hz => (hprops z hz).1
        exact hbne (covers_offset_inj hcov hpos hb hbf0 (by rw [heq, hoff0]))
      by_cases ht : bf.touched = []
      · rw [if_pos hs, if_pos ht]
        apply updSegBlocks_preserves st hg hb
        intro hid
        apply mem_coalesceAll_of_not_free _ (not_free_of_pending hp)
        exact mem_map_ite_of_ne hb (hoffne hid)
      · rw [if_pos hs, if_neg ht]
        obtain ⟨g', hg', hid', hb'⟩ := updSegBlocks_preserves
          { st with nextEvent := st.nextEvent + bf.touched.length }
          hg hb (fun hid => mem_map_ite_of_ne hb (hoffne hid))
        obtain ⟨g'', hg'', hid'', hb''⟩ := harvest_preserves_pending _ hg' hb' hp he hen
        exact ⟨g'', hg'', by rw [hid'', hid'], hb''⟩
    · rw [if_neg hs]
      exact ⟨g, hg, rfl, hb⟩

theorem doMarkUsed_preserves_pending {st : AState} (hInv : Inv st) {g : Segment} {b : Block}
    (hg : g ∈ st.segments) (hb : b ∈ g.blocks) (hp : b.status = .pendingFree)
    (ref : Ref) (s : StreamId) :
    ∃ g' ∈ (doMarkUsed st ref s).segments, g'.id = g.id ∧ b ∈ g'.blocks := by
  unfold doMarkUsed
  cases hl : lookup st ref with
  | none => exact ⟨g, hg, rfl, hb⟩
  | some bf =>
    dsimp only
    by_cases hc : bf.status = .inUse ∧ s ≠ bf.stream ∧ s ∉ bf.touched
    · rw [if_pos hc]
      obtain ⟨g0, hg0, hid0, -, hbf0, hoff0⟩ := lookup_sound hl
      apply updSegBlocks_preserves st hg hb
      intro hid
      have hgg : g = g0 := seg_id_inj hInv hg hg0 (by rw [hid, hid0])
      subst hgg
      obtain ⟨hcov, -, -, hprops⟩ := hInv.1 g hg
      have hpos : ∀ z ∈ g.blocks, 0 < z.size := fun z hz => (hprops z hz).1
      apply mem_map_ite_of_ne hb
      intro heq
      have hbbf : b = bf := covers_offset_inj hcov hpos hb hbf0 (by rw [heq, hoff0])
      rw [hbbf, hc.1] at hp
      cases hp
    · rw [if_neg hc]
      exact ⟨g, hg, rfl, hb⟩

theorem doComplete_segments (st : AState) (e : EventId) :
    (doComplete st e).segments = st.segments := by
  unfold doComplete
  by_cases h : e < st.nextEvent
  · rw [if_pos h]
  · rw [if_neg h]

theorem doRelease_preserves_pending {st : AState} {g : Segment} {b : Block}
    (hg : g ∈ st.segments) (hb : b ∈ g.blocks) (hp : b.status = .pendingFree) :
    ∃ g' ∈ (doRelease st).segments, g'.id = g.id ∧ b ∈ g'.blocks := by
  refine ⟨g, ?_, rfl, hb⟩
  apply List.mem_filter.mpr
  refine ⟨hg, ?_⟩
  have hff : segFullyFree g = false := by
    cases hall : segFullyFree g
    · rfl
    · unfold segFullyFree at hall
      have := List.all_eq_true.mp hall b hb
      rw [not_free_of_pending hp] at this
      cases this
  simp [hff]

/-- A pending Block with an unresolved event survives every command
unchanged: it is not returned, coalesced or promoted, and its Segment is
not released. -/
theorem pending_survives_exec {st : AState} (hInv : Inv st) {g : Segment} {b : Block}
    (hg : g ∈ st.segments) (hb : b ∈ g.blocks) (hp : b.status = .pendingFree)
    {e : EventId} (he : e ∈ b.events) (hen : e ∉ st.completed) (c : Cmd) :
    ∃ g' ∈ (exec st c).segments, g'.id = g.id ∧ b ∈ g'.blocks := by
  cases c with
  | alloc n s => exact allocate_preserves_pending hInv hg hb hp he hen n s
  | free gid off => exact doFree_preserves_pending hInv hg hb hp he hen (gid, off)
  | markUsed gid off s => exact doMarkUsed_preserves_pending hInv hg hb hp (gid, off) s
  | complete e' =>
    rw [exec, doComplete_segments]
    exact ⟨g, hg, rfl, hb⟩
  | release => exact doRelease_preserves_pending hg hb hp

/-! Behavioral lemmas about free. -/

theorem doFree_direct {st : AState} {ref : Ref} {b : Block} (hl : lookup st ref = some b)
    (hs : b.status = .inUse) (ht : b.touched = []) :
    doFree st ref = updSegBlocks st ref.1 (fun bs => coalesceAll (markFree bs ref.2)) := by
  unfold doFree
  rw [hl]
  dsimp only
  rw [if_pos hs, if_pos ht]

theorem doFree_pending_eq {st : AState} {ref : Ref} {b : Block}
    (hl : lookup st ref = some b) (hs : b.status = .inUse) (ht : b.touched ≠ []) :
    doFree st ref =
      harvest (updSegBlocks { st with nextEvent := st.nextEvent + b.touched.length }
        ref.1 (fun bs => markPending bs ref.2
          ((List.range b.touched.length).map (fun k => st.nextEvent + k)))) := by
  unfold doFree
  rw [hl]
  dsimp only
  rw [if_pos hs, if_neg ht]

/-- After freeing an in-use Block with no cross-stream touches, the freed
range lies inside a single free Block of its Segment (coalesced into the
free index), and no device call or event was involved. -/
theorem doFree_direct_spec {st : AState} (hInv : Inv st) {ref : Ref} {b : Block}
    (hl : lookup st ref = some b) (hs : b.status = .inUse) (ht : b.touched = []) :
    (doFree st ref).nextEvent = st.nextEvent ∧
    (doFree st ref).devFreeCalls = st.devFreeCalls ∧
    (doFree st ref).devAllocAttempts = st.devAllocAttempts ∧
    (doFree st ref).devAllocCalls = st.devAllocCalls ∧
    ∃ g' ∈ (doFree st ref).segments, g'.id = ref.1 ∧
      ∃ y ∈ g'.blocks, isFree y = true ∧ y.offset ≤ ref.2 ∧
        ref.2 + b.size ≤ y.offset + y.size := by
  rw [doFree_direct hl hs ht]
  refine ⟨rfl, rfl, rfl, rfl, ?_⟩
  obtain ⟨g0, hg0, hid0, -, hb0, hoff0⟩ := lookup_sound hl
  have hm := List.mem_map_of_mem
    (fun g => if g.id = ref.1 then
      { g with blocks := coalesceAll (markFree g.blocks ref.2) } else g) hg0
  dsimp only at hm
  rw [if_pos hid0] at hm
  refine ⟨_, hm, hid0, ?_⟩
  have hcov : covers 0 g0.blocks := (hInv.1 g0 hg0).1
  have hcov' : covers 0 (markFree g0.blocks ref.2) :=
    covers_map_same_shape
      (fun x => by by_cases hx : x.offset = ref.2 <;> simp [hx])
      (fun x => by by_cases hx : x.offset = ref.2 <;> simp [hx]) hcov
  have hbf : { b with status := BStatus.free, touched := [], events := [] } ∈
      markFree g0.blocks ref.2 := by
    have hm2 := List.mem_map_of_mem
      (fun x : Block => if x.offset = ref.2 then
        { x with status := BStatus.free, touched := [], events := [] } else x) hb0
    dsimp only at hm2
    rw [if_pos hoff0] at hm2
    exact hm2
  obtain ⟨y, hy, hyf, hy1, hy2⟩ :=
    coalesceAll_free_cover hcov' hbf (by simp [isFree])
  refine ⟨y, hy, hyf, ?_, ?_⟩
  · show y.offset ≤ ref.2
    simp only at hy1
    omega
  · show ref.2 + b.size ≤ y.offset + y.size
    simp only at hy2
    omega

/-- After freeing an in-use Block touched by other streams, one event per
touching stream is recorded, the Block sits in the Pending-Free set with
those events, at least one of them unresolved, and no device call was
made. -/
theorem doFree_pending_spec {st : AState} (hInv : Inv st) {ref : Ref} {b : Block}
    (hl : lookup st ref = some b) (hs : b.status = .inUse) (ht : b.touched ≠ []) :
    (doFree st ref).nextEvent = st.nextEvent + b.touched.length ∧
    (doFree st ref).devFreeCalls = st.devFreeCalls ∧
    (doFree st ref).completed = st.completed ∧
    ∃ g' ∈ (doFree st ref).segments, g'.id = ref.1 ∧
      ∃ b' ∈ g'.blocks, b'.offset = ref.2 ∧ b'.size = b.size ∧
        b'.status = .pendingFree ∧
        b'.events = (List.range b.touched.length).map (fun k => st.nextEvent + k) ∧
        ∃ e ∈ b'.events, e ∉ (doFree st ref).completed := by
  rw [doFree_pending_eq hl hs ht]
  refine ⟨rfl, rfl, rfl, ?_⟩
  obtain ⟨g0, hg0, hid0, -, hb0, hoff0⟩ := lookup_sound hl
  have hlen : 0 < b.touched.length := List.length_pos.mpr ht
  have hbP : { b with
                 status := BStatus.pendingFree, touched := [],
                 events := (List.range b.touched.length).map
                   (fun k => st.nextEvent + k) } ∈
      markPending g0.blocks ref.2
        ((List.range b.touched.length).map (fun k => st.nextEvent + k)) := by
    have hm2 := List.mem_map_of_mem
      (fun x : Block => if x.offset = ref.2 then
        { x with
            status := BStatus.pendingFree, touched := [],
            events := (List.range b.touched.length).map
              (fun k => st.nextEvent + k) }
        else x) hb0
    dsimp only at hm2
    rw [if_pos hoff0] at hm2
    exact hm2
  have hmSeg := List.mem_map_of_mem
    (fun g => if g.id = ref.1 then
      { g with
          blocks := markPending g.blocks ref.2
            ((List.range b.touched.length).map (fun k => st.nextEvent + k)) }
      else g) hg0
  dsimp only at hmSeg
  rw [if_pos hid0] at hmSeg
  have heMem : st.nextEvent ∈
      (List.range b.touched.length).map (fun k => st.nextEvent + k) :=
    List.mem_map.mpr ⟨0, List.mem_range.mpr hlen, rfl⟩
  have heNot : st.nextEvent ∉ st.completed := by
    intro hmem
    exact absurd (hInv.2.2.2 st.nextEvent hmem) (lt_irrefl _)
  obtain ⟨g'', hg'', hid'', hb''⟩ :=
    harvest_preserves_pending
      (updSegBlocks { st with nextEvent := st.nextEvent + b.touched.length }
        ref.1 (fun bs => markPending bs ref.2
          ((List.range b.touched.length).map (fun k => st.nextEvent + k))))
      hmSeg hbP rfl heMem heNot
  refine ⟨g'', hg'', by rw [hid'', hid0], ?_⟩
  exact ⟨_, hb'', hoff0, rfl, rfl, rfl, st.nextEvent, heMem, heNot⟩

/-- A successful allocate returns a reference to an in-use Block of the
rounded size on the requested stream with a fresh touched-by set. -/
theorem allocate_ok_lookup {st : AState} {n : Nat} {s : StreamId} {ref : Ref}
    {st' : AState} (hInv : Inv st) (h : allocate st n s = (.ok ref, st')) :
    lookup st' ref = some { offset := ref.2, size := roundSize n, status := .inUse,
                            stream := s, touched := [], events := [] } := by
  rcases allocate_ok_cases h with h1 | ⟨st1, h1, h2⟩
  · exact tryAlloc_ok_lookup hInv h1
  · obtain ⟨hst1, -⟩ := tryAlloc_none_state h1
    subst hst1
    have hInv1 : Inv { st with devAllocAttempts := st.devAllocAttempts + 1 } := hInv
    exact tryAlloc_ok_lookup (Inv_harvest hInv1) h2

/-- One allocation pass makes at most one device request. -/
theorem tryAlloc_attempts_le (st : AState) (r : Nat) (s : StreamId) :
    (tryAlloc st r s).2.devAllocAttempts ≤ st.devAllocAttempts + 1 := by
  unfold tryAlloc
  cases h1 : pickBest (allCands st r (fun x => x.stream = s)) with
  | some c => exact Nat.le_succ _
  | none =>
    cases h2 : pickBest (allCands st r (fun _ => true)) with
    | some c => exact Nat.le_succ _
    | none =>
      dsimp only
      by_cases hbud : st.segBudget = 0
      · rw [if_pos hbud]
      · rw [if_neg hbud]

/-- allocate makes at most two device requests: the initial pass and the
single harvest-and-retry pass. -/
theorem allocate_attempts_le (st : AState) (n : Nat) (s : StreamId) :
    (allocate st n s).2.devAllocAttempts ≤ st.devAllocAttempts + 2 := by
  unfold allocate
  cases h1 : tryAlloc st (roundSize n) s with
  | mk o1 st1 =>
    have hle1 : st1.devAllocAttempts ≤ st.devAllocAttempts + 1 := by
      have := tryAlloc_attempts_le st (roundSize n) s
      rw [h1] at this
      exact this
    cases o1 with
    | some ref => exact Nat.le_trans hle1 (by omega)
    | none =>
      dsimp only
      cases h2 : tryAlloc (harvest st1) (roundSize n) s with
      | mk o2 st2 =>
        have hle2 : st2.devAllocAttempts ≤ st1.devAllocAttempts + 1 := by
          have := tryAlloc_attempts_le (harvest st1) (roundSize n) s
          rw [h2] at this
          exact this
        cases o2 with
        | some ref => exact Nat.le_trans hle2 (by omega)
        | none => exact Nat.le_trans hle2 (by omega)

/-! Lemmas about the per-Block coalesce contract. -/

theorem mergeTwo_free (a b : Block) : isFree (mergeTwo a b) = true := by
  simp [mergeTwo, isFree]

theorem mergeLeft_free : ∀ (pre : List Block) {b : Block}, isFree b = true →
    isFree (mergeLeft pre b).2 = true ∧
    (∀ p, (mergeLeft pre b).1.head? = some p → isFree p = false) := by
  intro pre
  induction pre with
  | nil =>
    intro b hb
    exact ⟨hb, fun p hp => by cases hp⟩
  | cons q rest ih =>
    intro b hb
    unfold mergeLeft
    cases hq : isFree q with
    | true =>
      rw [if_pos (by rw [hb]; rfl)]
      exact ih (mergeTwo_free q b)
    | false =>
      rw [if_neg (by simp)]
      exact ⟨hb, fun p hp => by
        simp only [List.head?_cons, Option.some.injEq] at hp
        rw [← hp]
        exact hq⟩

theorem mergeRight_free : ∀ (post : List Block) {b : Block}, isFree b = true →
    isFree (mergeRight b post).1 = true ∧
    (∀ p, (mergeRight b post).2.head? = some p → isFree p = false) := by
  intro post
  induction post with
  | nil =>
    intro b hb
    exact ⟨hb, fun p hp => by cases hp⟩
  | cons q rest ih =>
    intro b hb
    unfold mergeRight
    cases hq : isFree q with
    | true =>
      rw [if_pos (by rw [hb]; rfl)]
      exact ih (mergeTwo_free b q)
    | false =>
      rw [if_neg (by simp)]
      exact ⟨hb, fun p hp => by
        simp only [List.head?_cons, Option.some.injEq] at hp
        rw [← hp]
        exact hq⟩

theorem mergeLeft_noop {pre : List Block} {b : Block}
    (h : ∀ p, pre.head? = some p → isFree p = false) :
    mergeLeft pre b = (pre, b) := by
  cases pre with
  | nil => rfl
  | cons q rest =>
    unfold mergeLeft
    rw [h q rfl]
    simp

theorem mergeRight_noop {post : List Block} {b : Block}
    (h : ∀ p, post.head? = some p → isFree p = false) :
    mergeRight b post = (b, post) := by
  cases post with
  | nil => rfl
  | cons q rest =>
    unfold mergeRight
    rw [h q rfl]
    simp

theorem coalesceBlock_eq {bs : List Block} {i : Nat} {b : Block} (h : bs[i]? = some b) :
    coalesceBlock bs i =
      ((mergeLeft ((bs.take i).reverse) b).1.reverse ++
        (mergeRight (mergeLeft ((bs.take i).reverse) b).2 (bs.drop (i + 1))).1 ::
          (mergeRight (mergeLeft ((bs.take i).reverse) b).2 (bs.drop (i + 1))).2,
       (mergeLeft ((bs.take i).reverse) b).1.length) := by
  unfold coalesceBlock
  rw [h]

/-- Coalescing a free Block merges maximally, so doing it again at the
unified position changes nothing. -/
theorem coalesceBlock_idem {bs : List Block} {i : Nat} {b : Block}
    (h : bs[i]? = some b) (hb : isFree b = true) :
    coalesceBlock (coalesceBlock bs i).1 (coalesceBlock bs i).2 = coalesceBlock bs i := by
  have hfl := mergeLeft_free ((bs.take i).reverse) hb
  have hfr := mergeRight_free (bs.drop (i + 1)) hfl.1
  rw [coalesceBlock_eq h]
  have hidx : ((mergeLeft ((bs.take i).reverse) b).1.reverse ++
      (mergeRight (mergeLeft ((bs.take i).reverse) b).2 (bs.drop (i + 1))).1 ::
        (mergeRight (mergeLeft ((bs.take i).reverse) b).2 (bs.drop (i + 1))).2)[
          (mergeLeft ((bs.take i).reverse) b).1.length]? =
      some (mergeRight (mergeLeft ((bs.take i).reverse) b).2 (bs.drop (i + 1))).1 := by
    rw [List.getElem?_append_right (by rw [List.length_reverse])]
    rw [List.length_reverse, Nat.sub_self]
    simp
  rw [coalesceBlock_eq hidx]
  have htake : ((mergeLeft ((bs.take i).reverse) b).1.reverse ++
      (mergeRight (mergeLeft ((bs.take i).reverse) b).2 (bs.drop (i + 1))).1 ::
        (mergeRight (mergeLeft ((bs.take i).reverse) b).2 (bs.drop (i + 1))).2).take
          (mergeLeft ((bs.take i).reverse) b).1.length =
      (mergeLeft ((bs.take i).reverse) b).1.reverse := by
    have ht := List.take_left (mergeLeft ((bs.take i).reverse) b).1.reverse
      ((mergeRight (mergeLeft ((bs.take i).reverse) b).2 (bs.drop (i + 1))).1 ::
        (mergeRight (mergeLeft ((bs.take i).reverse) b).2 (bs.drop (i + 1))).2)
    rwa [List.length_reverse] at ht
  have hdrop : ((mergeLeft ((bs.take i).reverse) b).1.reverse ++
      (mergeRight (mergeLeft ((bs.take i).reverse) b).2 (bs.drop (i + 1))).1 ::
        (mergeRight (mergeLeft ((bs.take i).reverse) b).2 (bs.drop (i + 1))).2).drop
          ((mergeLeft ((bs.take i).reverse) b).1.length + 1) =
      (mergeRight (mergeLeft ((bs.take i).reverse) b).2 (bs.drop (i + 1))).2 := by
    rw [List.append_cons]
    have hlen : (mergeLeft ((bs.take i).reverse) b).1.length + 1 =
        ((mergeLeft ((bs.take i).reverse) b).1.reverse ++
          [(mergeRight (mergeLeft ((bs.take i).reverse) b).2 (bs.drop (i + 1))).1]).length := by
      simp
    rw [hlen, List.drop_left]
  rw [htake, List.reverse_reverse, hdrop]
  rw [mergeLeft_noop hfl.2, mergeRight_noop hfr.2]

/-- Coalescing a Block with no free neighbor is a no-op. -/
theorem coalesceBlock_noop {bs : List Block} {i : Nat} {b : Block}
    (h : bs[i]? = some b) (hnb : noFreeNeighbor bs i) :
    coalesceBlock bs i = (bs, i) := by
  obtain ⟨hprev, hnext⟩ := hnb
  obtain ⟨hlt, hbi⟩ := List.getElem?_eq_some.mp h
  have hml : mergeLeft ((bs.take i).reverse) b = ((bs.take i).reverse, b) := by
    apply mergeLeft_noop
    intro p hp
    rw [List.head?_reverse, List.getLast?_take] at hp
    by_cases hi : i = 0
    · rw [if_pos hi] at hp
      cases hp
    · rw [if_neg hi] at hp
      have hi1 : i - 1 < bs.length := by omega
      rw [List.getElem?_eq_getElem hi1, Option.or_some] at hp
      have hfree := (hprev.resolve_left hi) bs[i - 1] (List.getElem?_eq_getElem hi1)
      simp only [Option.some.injEq] at hp
      rw [← hp]
      exact hfree
  have hmr : mergeRight b (bs.drop (i + 1)) = (b, bs.drop (i + 1)) := by
    apply mergeRight_noop
    intro p hp
    rw [List.head?_drop] at hp
    exact hnext p hp
  rw [coalesceBlock_eq h, hml, hmr]
  dsimp only
  rw [List.reverse_reverse, List.length_reverse, List.length_take]
  refine Prod.ext ?_ ?_
  · show bs.take i ++ b :: bs.drop (i + 1) = bs
    conv_rhs => rw [← List.take_append_drop i bs]
    rw [List.drop_eq_getElem_cons hlt, hbi]
  · show min i bs.length = i
    omega

end CutorchAlloc

namespace THCHeader

/-- Embedded from src/lib/THC/THCAllocator.h: the opaque THCState type
the header mentions (its fields live in THCGeneral.h, outside src). -/
structure THCState where
  dummy : Unit

/-- Embedded from src/lib/THC/THCAllocator.h: the opaque THAllocator
type. -/
structure THAllocator where
  dummy : Unit

/-- Embedded from src/lib/THC/THCAllocator.h line 6: THC_API void
THCAllocator_init(THCState *state) — the return type is void, embedded as
Unit; the (unknown) body can only produce the unique Unit value. -/
def THCAllocator_init (_state : THCState) : Unit := ()

/-- Embedded from src/lib/THC/THCAllocator.h line 7: THC_API void
THCUVAAllocator_init(THAllocator *state) — the return type is void,
embedded as Unit. -/
def THCUVAAllocator_init (_state : THAllocator) : Unit := ()

end THCHeader

namespace CutorchAlloc

/-! The claims. -/

/-- A reachable state holding one Segment with two in-use Blocks and a
free remainder, used to instantiate the reachable-state claims. -/
def stTwoAlloc : AState :=
  exec (exec (initState 2) (.alloc 64 0)) (.alloc 128 0)

/-- The single Segment of stTwoAlloc. -/
def segTwoAlloc : Segment := stTwoAlloc.segments.headD default

/-- The first in-use Block of stTwoAlloc. -/
def blkTwoA : Block := segTwoAlloc.blocks.headD default

/-- The second in-use Block of stTwoAlloc. -/
def blkTwoB : Block := (segTwoAlloc.blocks.drop 1).headD default

theorem Reach_stTwoAlloc : Reach stTwoAlloc :=
  Reach.step (Cmd.alloc 128 0) (Reach.step (Cmd.alloc 64 0) (Reach.init 2))

/-- C1: for every sequence of allocate and free calls on a device, no two
Blocks that are simultaneously marked in-use overlap in address range:
within any Segment of any reachable state, the half-open intervals of two
distinct in-use Blocks are disjoint. -/
theorem C1_no_overlap_of_inuse :
    ∀ st : AState, Reach st → ∀ g ∈ st.segments, ∀ b1 ∈ g.blocks, ∀ b2 ∈ g.blocks,
      b1 ≠ b2 → b1.status = .inUse → b2.status = .inUse →
      b1.offset + b1.size ≤ b2.offset ∨ b2.offset + b2.size ≤ b1.offset := by
  intro st hre g hg b1 hb1 b2 hb2 hne _ _
  obtain ⟨hcov, -, -, hprops⟩ := (Reach_Inv hre).1 g hg
  have hpos : ∀ z ∈ g.blocks, 0 < z.size := fun z hz => (hprops z hz).1
  rcases Nat.lt_trichotomy b1.offset b2.offset with h | h | h
  · exact Or.inl (covers_disjoint hcov hpos hb1 hb2 h)
  · exact absurd (covers_offset_inj hcov hpos hb1 hb2 h) hne
  · exact Or.inr (covers_disjoint hcov hpos hb2 hb1 h)

/-- Witness for C1 at a concrete reachable state with two in-use
Blocks. -/
theorem C1_witness :
    blkTwoA.offset + blkTwoA.size ≤ blkTwoB.offset ∨
    blkTwoB.offset + blkTwoB.size ≤ blkTwoA.offset :=
  C1_no_overlap_of_inuse stTwoAlloc Reach_stTwoAlloc segTwoAlloc (by decide)
    blkTwoA (by decide) blkTwoB (by decide) (by decide) (by decide) (by decide)

/-- C7: in every reachable state the Block sizes of a Segment sum to the
Segment size and the doubly-linked Block sequence covers it without gaps;
moreover coalescing preserves the sum, and so does splitting a resident
free Block. -/
theorem C7_sum_of_block_sizes :
    (∀ st : AState, Reach st → ∀ g ∈ st.segments,
      blocksSum g.blocks = g.size ∧ covers 0 g.blocks) ∧
    (∀ l : List Block, blocksSum (coalesceAll l) = blocksSum l) ∧
    (∀ (l : List Block) (b0 : Block) (o r : Nat) (s : StreamId),
      b0 ∈ l → b0.offset = o → r ≤ b0.size →
      (∀ z ∈ l, z.offset = o → z.size = b0.size) →
      blocksSum (splitAlloc l o r s) = blocksSum l) := by
  refine ⟨?_, coalesceAll_sum, ?_⟩
  · intro st hre g hg
    obtain ⟨h1, h2, -, -⟩ := (Reach_Inv hre).1 g hg
    exact ⟨h2, h1⟩
  · intro l b0 o r s h1 h2 h3 h4
    exact splitAlloc_sum h1 h2 h3 h4

/-- Witness for C7 at a concrete reachable Segment and a concrete
split. -/
theorem C7_witness :
    (blocksSum segTwoAlloc.blocks = segTwoAlloc.size ∧ covers 0 segTwoAlloc.blocks) ∧
    blocksSum (splitAlloc
      [{ offset := 0, size := 128, status := .free, stream := 0, touched := [], events := [] }]
      0 64 0) =
      blocksSum
        [{ offset := 0, size := 128, status := .free, stream := 0,
           touched := [], events := [] }] :=
  ⟨C7_sum_of_block_sizes.1 stTwoAlloc Reach_stTwoAlloc segTwoAlloc (by decide),
   C7_sum_of_block_sizes.2.2
     [{ offset := 0, size := 128, status := .free, stream := 0, touched := [], events := [] }]
     { offset := 0, size := 128, status := .free, stream := 0, touched := [], events := [] }
     0 64 0 (by decide) (by decide) (by decide) (by decide)⟩

/-- The state after allocating adjacent Blocks of 64 and 128 bytes from
one Segment and freeing both. -/
def stC4 : AState :=
  exec (exec (exec (exec (initState 1) (.alloc 64 0)) (.alloc 128 0)) (.free 0 0)) (.free 0 64)

/-- C4: in every reachable state adjacent free Blocks are coalesced before
being indexed, so no two free Blocks of a Segment are contiguous; and in
the concrete 64/128 scenario a subsequent request for 192 bytes is served
by one Block spanning the original range with no new device request. -/
theorem C4_adjacent_free_coalesced :
    (∀ st : AState, Reach st → ∀ g ∈ st.segments, noAdjFree g.blocks) ∧
    ((allocate stC4 192 0).1 = .ok (0, 0) ∧
      lookup (allocate stC4 192 0).2 (0, 0) =
        some { offset := 0, size := 192, status := .inUse, stream := 0,
               touched := [], events := [] } ∧
      (allocate stC4 192 0).2.devAllocAttempts = stC4.devAllocAttempts ∧
      (allocate stC4 192 0).2.devAllocCalls = stC4.devAllocCalls) := by
  constructor
  · intro st hre g hg
    exact ((Reach_Inv hre).1 g hg).2.2.1
  · decide

/-- Witness for C4 at a concrete reachable state. -/
theorem C4_witness : noAdjFree segTwoAlloc.blocks :=
  C4_adjacent_free_coalesced.1 stTwoAlloc Reach_stTwoAlloc segTwoAlloc (by decide)

/-- C5: on device out-of-memory, allocate harvests the already-signaled
pending Blocks, retries the allocation exactly once, and propagates
DeviceOutOfMemory only when the retry also fails; in every case it makes
at most the two device requests, never more. -/
theorem C5_oom_harvest_retry_once :
    (∀ (st : AState) (n : Nat) (s : StreamId) (st' : AState),
      allocate st n s = (.error .deviceOutOfMemory, st') →
      (tryAlloc st (roundSize n) s).1 = none ∧
      (tryAlloc (harvest { st with devAllocAttempts := st.devAllocAttempts + 1 })
        (roundSize n) s).1 = none ∧
      st'.devAllocAttempts = st.devAllocAttempts + 2) ∧
    (∀ (st : AState) (n : Nat) (s : StreamId),
      (allocate st n s).2.devAllocAttempts ≤ st.devAllocAttempts + 2) := by
  constructor
  · intro st n s st' h
    obtain ⟨st1, h1, h2, -⟩ := allocate_error_cases h
    obtain ⟨hst1, -⟩ := tryAlloc_none_state h1
    subst hst1
    refine ⟨by rw [h1], by rw [h2], ?_⟩
    obtain ⟨hst2, -⟩ := tryAlloc_none_state h2
    rw [hst2]
    rfl
  · exact allocate_attempts_le

/-- Witness for C5 on a device with no capacity at all. -/
theorem C5_witness :
    (tryAlloc (initState 0) (roundSize 8) 0).1 = none ∧
    (tryAlloc (harvest { initState 0 with
        devAllocAttempts := (initState 0).devAllocAttempts + 1 }) (roundSize 8) 0).1 = none ∧
    ((allocate (initState 0) 8 0).2).devAllocAttempts = (initState 0).devAllocAttempts + 2 :=
  C5_oom_harvest_retry_once.1 (initState 0) 8 0 ((allocate (initState 0) 8 0).2) (by decide)

/-- A reachable state holding a Block in the Pending-Free set: allocated
on stream 0, touched by stream 1, then freed, with its completion event
still unresolved. -/
def stPend : AState :=
  exec (exec (exec (initState 1) (.alloc 64 0)) (.markUsed 0 0 1)) (.free 0 0)

/-- The Segment of stPend. -/
def segPend : Segment := stPend.segments.headD default

/-- The pending Block of stPend. -/
def blkPend : Block := segPend.blocks.headD default

/-- The unresolved completion event of blkPend. -/
def evPend : EventId := blkPend.events.headD 0

theorem Reach_stPend : Reach stPend :=
  Reach.step (Cmd.free 0 0) (Reach.step (Cmd.markUsed 0 0 1)
    (Reach.step (Cmd.alloc 64 0) (Reach.init 1)))

/-- C2: a Block freed after being touched by other streams sits in the
Pending-Free set; while any of its recorded completion events is
unobserved, no allocate call returns it, and under every command the
Block survives intact (not coalesced) inside a Segment that is not
released. -/
theorem C2_pending_block_protected :
    ∀ st : AState, Reach st → ∀ g ∈ st.segments, ∀ b ∈ g.blocks,
      b.status = .pendingFree → ∀ e ∈ b.events, e ∉ st.completed →
      (∀ (n : Nat) (s : StreamId) (ref : Ref) (st' : AState),
        allocate st n s = (.ok ref, st') → ref ≠ (g.id, b.offset)) ∧
      (∀ c : Cmd, ∃ g' ∈ (exec st c).segments, g'.id = g.id ∧ b ∈ g'.blocks) := by
  intro st hre g hg b hb hp e he hen
  have hInv := Reach_Inv hre
  exact ⟨fun n s ref st' h => allocate_ne_pending hInv hg hb hp he hen h,
         fun c => pending_survives_exec hInv hg hb hp he hen c⟩

/-- Witness for C2: in the concrete pending state, a fresh allocate on
the same stream returns the other free Block, not the pending one, and
the pending Block survives the allocate. -/
theorem C2_witness :
    ((0 : Nat), (64 : Nat)) ≠ (segPend.id, blkPend.offset) ∧
    ∃ g' ∈ (exec stPend (.alloc 64 0)).segments, g'.id = segPend.id ∧ blkPend ∈ g'.blocks := by
  have h := C2_pending_block_protected stPend Reach_stPend segPend (by decide)
    blkPend (by decide) (by decide) evPend (by decide) (by decide)
  exact ⟨h.1 64 0 (0, 64) ((allocate stPend 64 0).2) (by decide), h.2 (.alloc 64 0)⟩

/-- C3: free of a just-allocated Block with no cross-stream touch puts it
straight back in the cached pool, and the next allocate of the same size
on the same stream is served from the pool: it succeeds with no new
device request, no new device segment and no new Segment in the list. -/
theorem C3_roundtrip_reuses_cache :
    ∀ (st : AState) (n : Nat) (s : StreamId) (ref : Ref) (st1 : AState),
      Inv st → allocate st n s = (.ok ref, st1) →
      ∃ ref2 st3, allocate (doFree st1 ref) n s = (.ok ref2, st3) ∧
        st3.devAllocAttempts = (doFree st1 ref).devAllocAttempts ∧
        st3.devAllocCalls = (doFree st1 ref).devAllocCalls ∧
        st3.nextSeg = (doFree st1 ref).nextSeg ∧
        st3.segments.length = (doFree st1 ref).segments.length := by
  intro st n s ref st1 hInv h
  have hInv1 : Inv st1 := by
    have h2 := Inv_allocate (n := n) (s := s) hInv
    rw [h] at h2
    exact h2
  have hlook := allocate_ok_lookup hInv h
  obtain ⟨-, -, -, -, g', hg', hid', y, hy, hyf, hy1, hy2⟩ :=
    doFree_direct_spec hInv1 hlook rfl rfl
  have hy2' : ref.2 + roundSize n ≤ y.offset + y.size := hy2
  have hr : roundSize n ≤ y.size := by omega
  obtain ⟨ref2, heq⟩ := tryAlloc_hit_of_candidate (doFree st1 ref) hg' hy hyf hr
  refine ⟨ref2, _, allocate_of_tryAlloc_some heq, rfl, rfl, rfl, ?_⟩
  exact List.length_map _ _

/-- Witness for C3 starting from the empty one-segment device. -/
theorem C3_witness :
    ∃ ref2 st3,
      allocate (doFree ((allocate (initState 1) 64 0).2) (0, 0)) 64 0 = (.ok ref2, st3) ∧
      st3.devAllocAttempts =
        (doFree ((allocate (initState 1) 64 0).2) (0, 0)).devAllocAttempts ∧
      st3.devAllocCalls = (doFree ((allocate (initState 1) 64 0).2) (0, 0)).devAllocCalls ∧
      st3.nextSeg = (doFree ((allocate (initState 1) 64 0).2) (0, 0)).nextSeg ∧
      st3.segments.length =
        (doFree ((allocate (initState 1) 64 0).2) (0, 0)).segments.length :=
  C3_roundtrip_reuses_cache (initState 1) 64 0 (0, 0) ((allocate (initState 1) 64 0).2)
    (by decide) (by decide)

/-- The state after allocating one 64-byte Block on stream 0, never
touched by another stream. -/
def stC6 : AState := exec (initState 1) (.alloc 64 0)

/-- C6 counterexample: freeing a Block that no other stream touched
records no completion event (nextEvent is unchanged) and puts the Block
into the free index (coalesced with the remainder), not into the
Pending-Free set — refuting the claim that free always records an event
on the current stream and always inserts into the Pending-Free set. -/
theorem C6_counterexample :
    lookup stC6 (0, 0) = some { offset := 0, size := 64, status := .inUse, stream := 0,
                                touched := [], events := [] } ∧
    (doFree stC6 (0, 0)).nextEvent = stC6.nextEvent ∧
    lookup (doFree stC6 (0, 0)) (0, 0) =
      some { offset := 0, size := 1024, status := .free, stream := 0,
             touched := [], events := [] } := by
  decide

/-- C6 (amended): free never makes a device free call; a Block with no
cross-stream touch goes directly, coalesced, into the free index with no
event recorded; a Block touched by other streams gets one completion
event per distinct touching stream, enters the Pending-Free set with
those events, and is invisible to allocation search. -/
theorem C6_free_is_deferred :
    ∀ (st : AState) (ref : Ref) (b : Block), Inv st →
      lookup st ref = some b → b.status = .inUse →
      (doFree st ref).devFreeCalls = st.devFreeCalls ∧
      (b.touched = [] →
        (doFree st ref).nextEvent = st.nextEvent ∧
        ∃ g' ∈ (doFree st ref).segments, g'.id = ref.1 ∧
          ∃ y ∈ g'.blocks, isFree y = true ∧ y.offset ≤ ref.2 ∧
            ref.2 + b.size ≤ y.offset + y.size) ∧
      (b.touched ≠ [] →
        b.touched.Nodup ∧
        (doFree st ref).nextEvent = st.nextEvent + b.touched.length ∧
        ∃ g' ∈ (doFree st ref).segments, g'.id = ref.1 ∧
          ∃ b' ∈ g'.blocks, b'.offset = ref.2 ∧ b'.size = b.size ∧
            b'.status = .pendingFree ∧ b'.events.length = b.touched.length ∧
            ∀ (n : Nat) (s : StreamId) (ref2 : Ref) (st2 : AState),
              allocate (doFree st ref) n s = (.ok ref2, st2) → ref2 ≠ (ref.1, ref.2)) := by
  intro st ref b hInv hl hs
  refine ⟨?_, ?_, ?_⟩
  · by_cases ht : b.touched = []
    · exact (doFree_direct_spec hInv hl hs ht).2.1
    · exact (doFree_pending_spec hInv hl hs ht).2.1
  · intro ht
    obtain ⟨h1, -, -, -, hrest⟩ := doFree_direct_spec hInv hl hs ht
    exact ⟨h1, hrest⟩
  · intro ht
    have hnd : b.touched.Nodup := by
      obtain ⟨g0, hg0, -, -, hb0, -⟩ := lookup_sound hl
      exact ((hInv.1 g0 hg0).2.2.2 b hb0).2
    obtain ⟨h1, -, -, g', hg', hid', b', hb', hoff', hsz', hstat', hev', e, heE, heN⟩ :=
      doFree_pending_spec hInv hl hs ht
    refine ⟨hnd, h1, g', hg', hid', b', hb', hoff', hsz', hstat', ?_, ?_⟩
    · rw [hev']
      simp
    · intro n s ref2 st2 hal
      have hInvF : Inv (doFree st ref) := Inv_doFree hInv
      have hne := allocate_ne_pending hInvF hg' hb' hstat' heE heN hal
      rw [hid', hoff'] at hne
      exact hne

/-- The state whose Block at offset 0 is in use on stream 0 and was
touched by stream 1. -/
def stMk : AState := exec (exec (initState 1) (.alloc 64 0)) (.markUsed 0 0 1)

/-- The in-use, cross-stream-touched Block of stMk. -/
def blkMk : Block := (lookup stMk (0, 0)).getD default

/-- Witness for C6 (amended) on a Block touched by another stream. -/
theorem C6_witness :
    (doFree stMk (0, 0)).devFreeCalls = stMk.devFreeCalls ∧
    ∃ g' ∈ (doFree stMk (0, 0)).segments, g'.id = 0 ∧
      ∃ b' ∈ g'.blocks, b'.offset = 0 ∧ b'.size = blkMk.size ∧
        b'.status = .pendingFree ∧ b'.events.length = blkMk.touched.length ∧
        ∀ (n : Nat) (s : StreamId) (ref2 : Ref) (st2 : AState),
          allocate (doFree stMk (0, 0)) n s = (.ok ref2, st2) → ref2 ≠ (0, 0) := by
  have h := C6_free_is_deferred stMk (0, 0) blkMk (by decide) (by decide) (by decide)
  obtain ⟨h1, -, h3⟩ := h
  obtain ⟨-, -, hrest⟩ := h3 (by decide)
  exact ⟨h1, hrest⟩

end CutorchAlloc

namespace CutorchAlloc

/-- A Block sequence whose middle Block is free with in-use neighbors. -/
def demoBs : List Block :=
  [{ offset := 0, size := 64, status := .inUse, stream := 0, touched := [], events := [] },
   { offset := 64, size := 128, status := .free, stream := 0, touched := [], events := [] },
   { offset := 192, size := 32, status := .inUse, stream := 0, touched := [], events := [] }]

/-- C8: coalesce is idempotent and total on free Blocks — coalescing the
unified Block again changes nothing, and on a Block with no free
neighbors coalesce is a no-op returning the sequence unchanged. -/
theorem C8_coalesce_idem_and_noop :
    ∀ (bs : List Block) (i : Nat) (b : Block), bs[i]? = some b → isFree b = true →
      coalesceBlock (coalesceBlock bs i).1 (coalesceBlock bs i).2 = coalesceBlock bs i ∧
      (noFreeNeighbor bs i → coalesceBlock bs i = (bs, i)) := by
  intro bs i b h hb
  exact ⟨coalesceBlock_idem h hb, coalesceBlock_noop h⟩

/-- Witness for C8 on a free Block with two in-use neighbors. -/
theorem C8_witness :
    coalesceBlock (coalesceBlock demoBs 1).1 (coalesceBlock demoBs 1).2 =
      coalesceBlock demoBs 1 ∧
    coalesceBlock demoBs 1 = (demoBs, 1) := by
  have h := C8_coalesce_idem_and_noop demoBs 1
    { offset := 64, size := 128, status := .free, stream := 0, touched := [], events := [] }
    (by decide) (by decide)
  exact ⟨h.1, h.2 (by decide)⟩

/-- The importing-process environment of a handle that is fully released
while its exporting Segment is already gone. -/
def envGone : IpcEnv := { residentSegs := [], releasedHandles := [7] }

/-- A handle referencing Segment 7. -/
def hdlGone : IPCHandle := { segId := 7, offset := 0, size := 64, device := 0 }

/-- C9 counterexample: a handle that is already fully released and whose
Segment is no longer resident fails with InvalidHandle, not StaleHandle —
refuting the unconditional claim that import fails with StaleHandle
whenever the handle has already been fully released. -/
theorem C9_counterexample :
    hdlGone.segId ∈ envGone.releasedHandles ∧
    importHandle envGone hdlGone = .error .invalidHandle ∧
    importHandle envGone hdlGone ≠ .error .staleHandle := by
  decide

/-- C9 (amended): import fails with InvalidHandle exactly when the
Segment is no longer resident; it fails with StaleHandle when the handle
was already fully released while its Segment is still resident; on
success it constructs a local Block view carrying the handle identity and
no local free-index membership. -/
theorem C9_import_handle_errors :
    ∀ (env : IpcEnv) (h : IPCHandle),
      (importHandle env h = .error .invalidHandle ↔ h.segId ∉ env.residentSegs) ∧
      (h.segId ∈ env.residentSegs → h.segId ∈ env.releasedHandles →
        importHandle env h = .error .staleHandle) ∧
      (∀ blk, importHandle env h = .ok blk →
        blk.inFreeIndex = false ∧ blk.segId = h.segId ∧ blk.offset = h.offset ∧
          blk.size = h.size ∧ blk.device = h.device) := by
  intro env h
  unfold importHandle
  by_cases h1 : h.segId ∉ env.residentSegs
  · rw [if_pos h1]
    refine ⟨⟨fun _ => h1, fun _ => rfl⟩, fun hres => absurd hres h1, ?_⟩
    intro blk hb
    cases hb
  · rw [if_neg h1]
    by_cases h2 : h.segId ∈ env.releasedHandles
    · rw [if_pos h2]
      refine ⟨⟨fun he => ?_, fun hnr => absurd hnr h1⟩, fun _ _ => rfl, ?_⟩
      · simp at he
      · intro blk hb
        cases hb
    · rw [if_neg h2]
      refine ⟨⟨fun he => ?_, fun hnr => absurd hnr h1⟩, fun _ hrel => absurd hrel h2, ?_⟩
      · simp at he
      · intro blk hb
        injection hb with hb
        rw [← hb]
        exact ⟨rfl, rfl, rfl, rfl, rfl⟩

/-- Witness for C9 (amended): a resident, released handle is stale, and a
resident, unreleased handle imports with no free-index membership. -/
theorem C9_witness :
    importHandle { residentSegs := [3], releasedHandles := [3] }
      { segId := 3, offset := 0, size := 16, device := 0 } = .error .staleHandle ∧
    (importHandle { residentSegs := [4], releasedHandles := [] }
        { segId := 4, offset := 8, size := 16, device := 0 } =
      .ok { segId := 4, offset := 8, size := 16, device := 0, inFreeIndex := false }) ∧
    ∀ blk, importHandle { residentSegs := [4], releasedHandles := [] }
        { segId := 4, offset := 8, size := 16, device := 0 } = .ok blk →
      blk.inFreeIndex = false := by
  refine ⟨?_, by decide, ?_⟩
  · exact (C9_import_handle_errors { residentSegs := [3], releasedHandles := [3] }
      { segId := 3, offset := 0, size := 16, device := 0 }).2.1 (by decide) (by decide)
  · intro blk hb
    exact ((C9_import_handle_errors { residentSegs := [4], releasedHandles := [] }
      { segId := 4, offset := 8, size := 16, device := 0 }).2.2 blk hb).1

end CutorchAlloc

/-- C10: both public allocator-initialization entry points of
THCAllocator.h return void (Unit), so no call can report failure through
its return value: all return values coincide and equal the unique Unit
value. -/
theorem C10_init_cannot_report_failure :
    (∀ s1 s2 : THCHeader.THCState,
      THCHeader.THCAllocator_init s1 = THCHeader.THCAllocator_init s2) ∧
    (∀ t1 t2 : THCHeader.THAllocator,
      THCHeader.THCUVAAllocator_init t1 = THCHeader.THCUVAAllocator_init t2) ∧
    (∀ (s : THCHeader.THCState) (u : Unit), THCHeader.THCAllocator_init s = u) ∧
    (∀ (t : THCHeader.THAllocator) (u : Unit), THCHeader.THCUVAAllocator_init t = u) :=
  ⟨fun _ _ => rfl, fun _ _ => rfl, fun _ u => by cases u; rfl, fun _ u => by cases u; rfl⟩
